import Mathlib

/-!
# Verification of the `task_system` scheduling engine

A shallow embedding of `task_system.py`: tasks with declared read/write
resource sets, construction-time validation of an explicit precedence
mapping, pairwise interference analysis, augmentation into the
maximum-parallelism graph, and the two execution strategies (sequential
topological run and wave-based concurrent run).

Python dicts are modelled as insertion-ordered association lists
(`List (String × α)`); lookup and in-place update use the first matching
key, which coincides with dict semantics whenever keys are unique (as they
are for every dict the source builds).  A task's action (a zero-argument
callable that may raise) is modelled by its observable outcome:
`none` for an absent action (`run=None`), `some true` for an action that
returns normally, `some false` for an action that raises.  The graph
algorithms the source delegates to `networkx` (acyclicity test,
topological sort, cycle enumeration) are modelled from the spec's design
notes as Kahn-style utilities over explicit node/edge lists.
-/

namespace TaskSystem

/-- `Task`: a name, declared read and write resource lists, and an optional
action (`run`). -/
structure Task where
  name : String
  reads : List String
  writes : List String
  run : Option Bool
deriving DecidableEq, Repr

/-- `Task.__init__`: an absent (`None`) `reads`/`writes` argument defaults to
the empty list (`reads or []`, `writes or []`). -/
def mkTask (name : String) (reads writes : Option (List String)) (run : Option Bool) : Task :=
  { name := name, reads := reads.getD [], writes := writes.getD [], run := run }

/-- `set(a).intersection(set(b))`, as the sublist of `a` that also occurs
in `b`; only emptiness of the result is ever observed. -/
def listInter (a b : List String) : List String :=
  a.filter (fun x => b.contains x)

/-- `SystemTask._are_tasks_interfering`: write/write, write/read and
read/write overlaps each force interference; otherwise the tasks are
independent. -/
def are_tasks_interfering (task1 task2 : Task) : Bool :=
  if !(listInter task1.writes task2.writes).isEmpty then true
  else if !(listInter task1.writes task2.reads).isEmpty then true
  else if !(listInter task1.reads task2.writes).isEmpty then true
  else false

/-! ## Graph utilities (modelled from the spec)

The source calls `networkx`.  Modelled from the spec (§9, "Delegated graph
algorithms"): explicit adjacency data, cycle detection, and a Kahn-style
topological sort over an ordered node list.  `addNode` mirrors
`G.add_edge` inserting endpoints that are not yet nodes, in insertion
order. -/

/-- Insert a node if absent, keeping insertion order. -/
def addNode (nodes : List String) (n : String) : List String :=
  if nodes.contains n then nodes else nodes ++ [n]

/-- The node list of a graph built by adding `nodes` first and then every
edge (each edge insertion adds its endpoints when missing). -/
def graphNodes (nodes : List String) (edges : List (String × String)) : List String :=
  edges.foldl (fun acc e => addNode (addNode acc e.1) e.2) nodes

/-- The first remaining node having no incoming edge from a remaining node:
the next node Kahn's algorithm can emit. -/
def findReady (edges : List (String × String)) (remaining : List String) : Option String :=
  remaining.find? (fun n => !(edges.any (fun e => e.2 == n && remaining.contains e.1)))

/-- Fuel-bounded Kahn topological sort: repeatedly emit a ready node. -/
def kahn (edges : List (String × String)) : Nat → List String → Option (List String)
  | 0, remaining => if remaining.isEmpty then some [] else none
  | fuel+1, remaining =>
    if remaining.isEmpty then some []
    else
      match findReady edges remaining with
      | none => none
      | some n => (kahn edges fuel (remaining.erase n)).map (fun order => n :: order)

/-- `nx.topological_sort`, modelled from the spec as a Kahn's-algorithm
topological sort; `none` when the graph is cyclic. -/
def topoSort (nodes : List String) (edges : List (String × String)) : Option (List String) :=
  kahn edges nodes.length nodes

/-- `nx.is_directed_acyclic_graph`, modelled from the spec: the graph is a
DAG iff a Kahn topological sort of all nodes succeeds. -/
def is_directed_acyclic_graph (nodes : List String) (edges : List (String × String)) : Bool :=
  (topoSort nodes edges).isSome

/-- Modelled from the spec: depth-first search for simple paths from
`current` back to `start`, used to enumerate cycles for diagnostics
(standing in for `nx.simple_cycles`, whose exact enumeration is a library
detail). -/
def cyclePathsFrom (edges : List (String × String)) :
    Nat → String → String → List String → List (List String)
  | 0, _, _, _ => []
  | fuel+1, start, current, visited =>
    (edges.filter (fun e => e.1 == current)).flatMap (fun e =>
      if e.2 == start then [[current]]
      else if visited.contains e.2 then []
      else (cyclePathsFrom edges fuel start e.2 (visited ++ [e.2])).map
        (fun p => current :: p))

/-- Modelled from the spec: `nx.simple_cycles`, every cycle found from every
start node, each reported as its node sequence. -/
def simple_cycles (nodes : List String) (edges : List (String × String)) :
    List (List String) :=
  nodes.flatMap (fun n => cyclePathsFrom edges nodes.length n n [n])

/-- `u` occurs strictly before an occurrence of `v` in the list. -/
def isBefore (l : List String) (u v : String) : Bool :=
  match l with
  | [] => false
  | x :: xs => (x == u && xs.contains v) || isBefore xs u v

/-! ## Construction: validation and the maximum-parallelism graph -/

/-- The distinct `ValueError`s (and the internal augmentation-cycle error)
raised during `SystemTask.__init__`, each carrying its structured detail. -/
inductive ConstructionError where
  /-- "Duplicate task names found: {duplicate_names}" -/
  | duplicateNames (names : List String)
  /-- "Tasks missing from precedences: {missing_tasks}" -/
  | tasksMissingFromPrecedences (names : List String)
  /-- "Non-existent dependency '{dep}' for task '{task}'" -/
  | nonExistentDependency (dep task : String)
  /-- "Cyclic dependencies detected: {cycles}" -/
  | cyclicDependencies (cycles : List (List String))
  /-- "Maximum parallelism graph has cycles, which shouldn't happen" -/
  | maxParallelismCycle
deriving DecidableEq, Repr

/-- First-match lookup in an association list (`d[k]`, as `Option`). -/
def lookupA {α : Type} (l : List (String × α)) (k : String) : Option α :=
  (l.find? (fun p => p.1 == k)).map (fun p => p.2)

/-- `mapping[k]`, defaulting to `[]` for an absent key (the source only ever
looks up keys that are present). -/
def lookupDeps (mp : List (String × List String)) (k : String) : List String :=
  (lookupA mp k).getD []

/-- `mapping[key].append(dep)`: append `dep` to the first entry keyed `key`
(a no-op when the key is absent, which the source never does). -/
def appendDep : List (String × List String) → String → String → List (String × List String)
  | [], _, _ => []
  | (k, ds) :: rest, key, dep =>
    if k == key then (k, ds ++ [dep]) :: rest
    else (k, ds) :: appendDep rest key dep

/-- The edge list of the graph built from a precedence mapping:
one edge `(dep, task)` per declared dependency, in iteration order. -/
def precedenceEdges (mapping : List (String × List String)) : List (String × String) :=
  mapping.flatMap (fun p => p.2.map (fun dep => (dep, p.1)))

/-- `[name for name in task_names if task_names.count(name) > 1]` -/
def duplicateNamesOf (task_names : List String) : List String :=
  task_names.filter (fun name => task_names.count name > 1)

/-- `SystemTask._validate_tasks`: fail when any task name repeats
(`len(task_names) != len(set(task_names))`). -/
def validate_tasks (tasks : List Task) : Except ConstructionError Unit :=
  let task_names := tasks.map (fun t => t.name)
  if task_names.dedup.length ≠ task_names.length then
    Except.error (.duplicateNames (duplicateNamesOf task_names))
  else Except.ok ()

/-- `set(task_names) - set(precedences.keys())`, as the distinct task names
having no entry (Python set iteration order is modelled by list order). -/
def missingFromPrecedences (task_names : List String)
    (precedences : List (String × List String)) : List String :=
  task_names.dedup.filter (fun n => !(precedences.map (fun p => p.1)).contains n)

/-- The double loop `for task, deps in precedences.items(): for dep in deps:`
returning the first `(task, dep)` whose `dep` is not a task name. -/
def findDangling (task_names : List String) :
    List (String × List String) → Option (String × String)
  | [] => none
  | p :: rest =>
    match p.2.find? (fun dep => !task_names.contains dep) with
    | some dep => some (p.1, dep)
    | none => findDangling task_names rest

/-- `SystemTask._validate_precedences`: missing entries, then dangling
dependency values, then acyclicity of the explicit graph. -/
def validate_precedences (tasks : List Task)
    (precedences : List (String × List String)) : Except ConstructionError Unit :=
  let task_names := tasks.map (fun t => t.name)
  let missing := missingFromPrecedences task_names precedences
  if !missing.isEmpty then
    Except.error (.tasksMissingFromPrecedences missing)
  else
    match findDangling task_names precedences with
    | some td => Except.error (.nonExistentDependency td.2 td.1)
    | none =>
      let edges := precedenceEdges precedences
      let nodes := graphNodes task_names edges
      if !is_directed_acyclic_graph nodes edges then
        Except.error (.cyclicDependencies (simple_cycles nodes edges))
      else Except.ok ()

/-- The ordered pairs `(task_names[i], task_names[j])` with `i < j`, in the
order of the two nested `for` loops of `_build_max_parallelism`. -/
def allPairs {α : Type} : List α → List (α × α)
  | [] => []
  | x :: xs => xs.map (fun y => (x, y)) ++ allPairs xs

/-- One iteration of the pair loop in `_build_max_parallelism`: skip the pair
if either task already lists the other in the (partially augmented) mapping;
otherwise, if the two tasks interfere, record that the
enumeration-earlier task must precede the enumeration-later one. -/
def interferenceStep (tasks : List (String × Task))
    (mp : List (String × List String)) (pr : String × String) :
    List (String × List String) :=
  if (lookupDeps mp pr.1).contains pr.2 || (lookupDeps mp pr.2).contains pr.1 then mp
  else
    match lookupA tasks pr.1, lookupA tasks pr.2 with
    | some t1, some t2 =>
      if are_tasks_interfering t1 t2 then appendDep mp pr.2 pr.1 else mp
    | _, _ => mp

/-- `SystemTask._build_max_parallelism`: copy the explicit precedences,
augment with one edge per interfering not-directly-ordered pair, then rebuild
the directed graph and fail unless it is acyclic. -/
def build_max_parallelism (tasks : List (String × Task))
    (initial : List (String × List String)) :
    Except ConstructionError (List (String × List String)) :=
  let maxParallel0 := initial.map (fun p => (p.1, p.2))
  let task_names := tasks.map (fun p => p.1)
  let maxParallel := (allPairs task_names).foldl (interferenceStep tasks) maxParallel0
  let edges := precedenceEdges maxParallel
  let nodes := graphNodes task_names edges
  if !is_directed_acyclic_graph nodes edges then Except.error .maxParallelismCycle
  else Except.ok maxParallel

/-- The validated scheduling context: the task dict (insertion order), the
copied caller precedences, and the derived maximum-parallelism mapping. -/
structure SystemTask where
  tasks : List (String × Task)
  initial_precedences : List (String × List String)
  max_parallelism : List (String × List String)
deriving DecidableEq, Repr

/-- `SystemTask.__init__`: the two validations in order (each raise
propagates, producing no context), then the task dict in insertion order,
the copied precedences, and the maximum-parallelism graph. -/
def SystemTask.construct (tasks : List Task)
    (precedences : List (String × List String)) : Except ConstructionError SystemTask :=
  match validate_tasks tasks with
  | .error e => .error e
  | .ok _ =>
    match validate_precedences tasks precedences with
    | .error e => .error e
    | .ok _ =>
      match build_max_parallelism (tasks.map (fun t => (t.name, t))) precedences with
      | .error e => .error e
      | .ok mp =>
        .ok { tasks := tasks.map (fun t => (t.name, t)), initial_precedences := precedences,
              max_parallelism := mp }

/-! ## Execution engine -/

/-- Run failures surfaced by `SystemTask.run`: the deadlock `RuntimeError`,
or a task action's exception propagating out. -/
inductive RunError where
  | deadlock
  | actionFailed (name : String)
deriving DecidableEq, Repr

/-- `for task_name in execution_order: task = self.tasks[task_name];
if task.run: task.run()`.  Returns the names whose action was invoked, in
order, and whether the loop finished normally (`false` models an exception:
a failing action, or the `KeyError` on a name with no task).  On an
exception the rest of the order is not visited. -/
def execActions (tasks : List (String × Task)) : List String → List String × Bool
  | [] => ([], true)
  | n :: rest =>
    match lookupA tasks n with
    | none => ([], false)
    | some t =>
      match t.run with
      | none => execActions tasks rest
      | some true =>
        let r := execActions tasks rest
        (n :: r.1, r.2)
      | some false => ([n], false)

/-- `SystemTask.runSeq`: one topological order of the maximum-parallelism
graph, then each task's action in that order; `none` models
`nx.topological_sort` raising on a cyclic graph. -/
def SystemTask.runSeq (st : SystemTask) : Option (List String × Bool) :=
  let nodes0 := st.tasks.map (fun p => p.1)
  let edges := precedenceEdges st.max_parallelism
  let nodes := graphNodes nodes0 edges
  (topoSort nodes edges).map (execActions st.tasks)

/-- The readiness scan of `SystemTask.run`: tasks not yet completed whose
maximum-parallelism dependencies are all completed, in task-dict order. -/
def readyTasks (tasks : List (String × Task)) (mp : List (String × List String))
    (completed : List String) : List String :=
  (tasks.map (fun p => p.1)).filter (fun n =>
    !completed.contains n && (lookupDeps mp n).all (fun dep => completed.contains dep))

/-- Whether the task dict maps `n` to a task whose action raises. -/
def failsAt (tasks : List (String × Task)) (n : String) : Bool :=
  match lookupA tasks n with
  | some t => t.run == some false
  | none => false

/-- The first ready task whose action raises, if any: its exception is what
`future.result()` re-raises out of the wave. -/
def failingReady (tasks : List (String × Task)) (ready : List String) : Option String :=
  ready.find? (fun n => failsAt tasks n)

/-- The possible outcomes of one iteration of the `while` loop in
`SystemTask.run`. -/
inductive WaveOutcome where
  | done (completed : List String)
  | deadlock
  | actionFailed (name : String)
  | nextWave (completed : List String)
deriving DecidableEq, Repr

/-- One iteration of the `while` loop of `SystemTask.run` as a step of the
wave state machine over the completed set: finished when every task is
completed; deadlock when nothing is ready; an action's exception propagates;
otherwise every ready task executes and joins the completed set. -/
def waveStep (tasks : List (String × Task)) (mp : List (String × List String))
    (completed : List String) : WaveOutcome :=
  if completed.length < tasks.length then
    let ready := readyTasks tasks mp completed
    if ready.isEmpty then .deadlock
    else
      match failingReady tasks ready with
      | some n => .actionFailed n
      | none => .nextWave (completed ++ ready)
  else .done completed

/-- The wave loop, fuel-bounded (each wave completes at least one task, so
`tasks.length + 1` units of fuel always suffice; `none` models a
non-terminating loop, which the theorems rule out). -/
def runWaves (tasks : List (String × Task)) (mp : List (String × List String)) :
    Nat → List String → Option (Except RunError (List String))
  | 0, _ => none
  | fuel+1, completed =>
    match waveStep tasks mp completed with
    | .done c => some (.ok c)
    | .deadlock => some (.error .deadlock)
    | .actionFailed n => some (.error (.actionFailed n))
    | .nextWave c => runWaves tasks mp fuel c

/-- `SystemTask.run`: the concurrent wave scheduler, started from an empty
completed set; exposes the final completed set on success. -/
def SystemTask.run (st : SystemTask) : Option (Except RunError (List String)) :=
  runWaves st.tasks st.max_parallelism (st.tasks.length + 1) []

/-! ## Concrete fixtures used to exercise the theorems -/

/-- A two-task chain `A → B`, both actions returning normally. -/
def chainTasks : List Task :=
  [⟨"A", [], [], some true⟩, ⟨"B", [], [], some true⟩]

def chainPrecs : List (String × List String) := [("A", []), ("B", ["A"])]

def chainSystem : SystemTask :=
  { tasks := [("A", ⟨"A", [], [], some true⟩), ("B", ⟨"B", [], [], some true⟩)],
    initial_precedences := chainPrecs, max_parallelism := chainPrecs }

/-- A three-task chain `A → B → C` whose middle action raises. -/
def failTasks : List Task :=
  [⟨"A", [], [], some true⟩, ⟨"B", [], [], some false⟩, ⟨"C", [], [], some true⟩]

def failPrecs : List (String × List String) := [("A", []), ("B", ["A"]), ("C", ["B"])]

def failSystem : SystemTask :=
  { tasks := [("A", ⟨"A", [], [], some true⟩), ("B", ⟨"B", [], [], some false⟩),
      ("C", ⟨"C", [], [], some true⟩)],
    initial_precedences := failPrecs, max_parallelism := failPrecs }

/-- Two explicitly-unordered tasks where `A` writes `"x"` and `B` reads
`"x"`: a write/read interference with no explicit edge. -/
def interTasks : List Task :=
  [⟨"A", [], ["x"], some true⟩, ⟨"B", ["x"], [], some true⟩]

def interPrecs : List (String × List String) := [("A", []), ("B", [])]

def interSystem : SystemTask :=
  { tasks := [("A", ⟨"A", [], ["x"], some true⟩), ("B", ⟨"B", ["x"], [], some true⟩)],
    initial_precedences := interPrecs,
    max_parallelism := [("A", []), ("B", ["A"])] }

/-- A two-task chain `A → N` where `N` has no action (`run=None`). -/
def noneTasks : List Task :=
  [⟨"A", [], [], some true⟩, ⟨"N", [], [], none⟩]

def nonePrecs : List (String × List String) := [("A", []), ("N", ["A"])]

def noneSystem : SystemTask :=
  { tasks := [("A", ⟨"A", [], [], some true⟩), ("N", ⟨"N", [], [], none⟩)],
    initial_precedences := nonePrecs, max_parallelism := nonePrecs }

/-! ## Spec-side predicates (written from the spec's wording, for the
characterization of construction) -/

/-- Spec §4.1 check 1: "if any task name repeats". -/
def someNameRepeats (tasks : List Task) : Bool :=
  (tasks.map (fun t => t.name)).any (fun n => 1 < (tasks.map (fun t => t.name)).count n)

/-- Spec §4.1 check 2: "if any task name has no entry in the precedence
mapping". -/
def someTaskUnmapped (tasks : List Task) (precedences : List (String × List String)) : Bool :=
  (tasks.map (fun t => t.name)).any
    (fun n => !(precedences.map (fun p => p.1)).contains n)

/-- Whether the task dict maps `n` to a task that has an action. -/
def hasAction (tasks : List (String × Task)) (n : String) : Bool :=
  match lookupA tasks n with
  | some t => t.run.isSome
  | none => false

/-! ## Basic lemmas about the interference analyzer -/

lemma listInter_not_isEmpty_iff (a b : List String) :
    ((listInter a b).isEmpty = false) ↔ ∃ x, x ∈ a ∧ x ∈ b := by
  rw [List.isEmpty_eq_false, Ne, listInter, List.filter_eq_nil_iff]
  simp

lemma are_tasks_interfering_eq_or (T1 T2 : Task) :
    are_tasks_interfering T1 T2 =
      (!(listInter T1.writes T2.writes).isEmpty || !(listInter T1.writes T2.reads).isEmpty ||
        !(listInter T1.reads T2.writes).isEmpty) := by
  unfold are_tasks_interfering
  cases (listInter T1.writes T2.writes).isEmpty <;>
    cases (listInter T1.writes T2.reads).isEmpty <;>
      cases (listInter T1.reads T2.writes).isEmpty <;> simp

lemma are_tasks_interfering_iff (T1 T2 : Task) :
    are_tasks_interfering T1 T2 = true ↔
      ((∃ x, x ∈ T1.writes ∧ x ∈ T2.writes) ∨ (∃ x, x ∈ T1.writes ∧ x ∈ T2.reads) ∨
        (∃ x, x ∈ T1.reads ∧ x ∈ T2.writes)) := by
  rw [are_tasks_interfering_eq_or]
  simp only [Bool.or_eq_true, Bool.not_eq_true']
  rw [listInter_not_isEmpty_iff, listInter_not_isEmpty_iff, listInter_not_isEmpty_iff]
  exact or_assoc

/-- C3. `_are_tasks_interfering` returns `true` iff one of the three
intersections writes₁∩writes₂, writes₁∩reads₂, reads₁∩writes₂ is
non-empty (so read/read overlap alone never yields `true`), and the result
is symmetric in its two arguments. -/
theorem interference_iff_hazard_and_symmetric (A B : Task) :
    (are_tasks_interfering A B = true ↔
      ((∃ x, x ∈ A.writes ∧ x ∈ B.writes) ∨ (∃ x, x ∈ A.writes ∧ x ∈ B.reads) ∨
        (∃ x, x ∈ A.reads ∧ x ∈ B.writes))) ∧
    are_tasks_interfering A B = are_tasks_interfering B A := by
  refine ⟨are_tasks_interfering_iff A B, ?_⟩
  have h : (are_tasks_interfering A B = true ↔ are_tasks_interfering B A = true) := by
    rw [are_tasks_interfering_iff, are_tasks_interfering_iff]
    constructor
    · rintro (⟨x, hx1, hx2⟩ | ⟨x, hx1, hx2⟩ | ⟨x, hx1, hx2⟩)
      · exact Or.inl ⟨x, hx2, hx1⟩
      · exact Or.inr (Or.inr ⟨x, hx2, hx1⟩)
      · exact Or.inr (Or.inl ⟨x, hx2, hx1⟩)
    · rintro (⟨x, hx1, hx2⟩ | ⟨x, hx1, hx2⟩ | ⟨x, hx1, hx2⟩)
      · exact Or.inl ⟨x, hx2, hx1⟩
      · exact Or.inr (Or.inr ⟨x, hx2, hx1⟩)
      · exact Or.inr (Or.inl ⟨x, hx2, hx1⟩)
  cases hAB : are_tasks_interfering A B <;> cases hBA : are_tasks_interfering B A <;>
    simp_all

/-! ## Unfolding equations for the construction pipeline -/

lemma validate_tasks_eq (ts : List Task) :
    validate_tasks ts =
      if (ts.map (fun t => t.name)).dedup.length ≠ (ts.map (fun t => t.name)).length then
        Except.error (.duplicateNames (duplicateNamesOf (ts.map (fun t => t.name))))
      else Except.ok () := rfl

lemma validate_precedences_eq (ts : List Task) (ps : List (String × List String)) :
    validate_precedences ts ps =
      if !(missingFromPrecedences (ts.map (fun t => t.name)) ps).isEmpty then
        Except.error
          (.tasksMissingFromPrecedences (missingFromPrecedences (ts.map (fun t => t.name)) ps))
      else
        match findDangling (ts.map (fun t => t.name)) ps with
        | some td => Except.error (.nonExistentDependency td.2 td.1)
        | none =>
          if !is_directed_acyclic_graph
              (graphNodes (ts.map (fun t => t.name)) (precedenceEdges ps))
              (precedenceEdges ps) then
            Except.error (.cyclicDependencies
              (simple_cycles (graphNodes (ts.map (fun t => t.name)) (precedenceEdges ps))
                (precedenceEdges ps)))
          else Except.ok () := rfl

lemma build_max_parallelism_eq (tasks : List (String × Task))
    (initial : List (String × List String)) :
    build_max_parallelism tasks initial =
      (if !is_directed_acyclic_graph
          (graphNodes (tasks.map (fun p => p.1))
            (precedenceEdges ((allPairs (tasks.map (fun p => p.1))).foldl
              (interferenceStep tasks) (initial.map (fun p => (p.1, p.2))))))
          (precedenceEdges ((allPairs (tasks.map (fun p => p.1))).foldl
            (interferenceStep tasks) (initial.map (fun p => (p.1, p.2))))) then
        Except.error .maxParallelismCycle
      else Except.ok ((allPairs (tasks.map (fun p => p.1))).foldl
        (interferenceStep tasks) (initial.map (fun p => (p.1, p.2))))) := rfl

/-! ## Inversion lemmas for successful construction -/

lemma nodup_of_dedup_length {l : List String} (h : l.dedup.length = l.length) : l.Nodup := by
  have hsub := List.dedup_sublist l
  have heq := hsub.eq_of_length h
  rw [← heq]
  exact l.nodup_dedup

lemma validate_tasks_ok_iff {ts : List Task} :
    validate_tasks ts = .ok () ↔ (ts.map (fun t => t.name)).Nodup := by
  rw [validate_tasks_eq]
  by_cases hd : (ts.map (fun t => t.name)).dedup.length = (ts.map (fun t => t.name)).length
  · rw [if_neg (by exact fun hc => hc hd)]
    exact iff_of_true rfl (nodup_of_dedup_length hd)
  · rw [if_pos hd]
    constructor
    · intro h
      exact absurd h (by simp)
    · intro hn
      exact absurd (congrArg List.length (List.dedup_eq_self.mpr hn)) hd

lemma validate_precedences_ok {ts : List Task} {ps : List (String × List String)}
    (h : validate_precedences ts ps = .ok ()) :
    (∀ n ∈ ts.map (fun t => t.name), n ∈ ps.map (fun p => p.1)) ∧
    (∀ p ∈ ps, ∀ d ∈ p.2, d ∈ ts.map (fun t => t.name)) := by
  rw [validate_precedences_eq] at h
  constructor
  · intro n hn
    by_contra hmem
    have hdn : n ∈ missingFromPrecedences (ts.map (fun t => t.name)) ps := by
      unfold missingFromPrecedences
      refine List.mem_filter.mpr ⟨List.mem_dedup.mpr hn, ?_⟩
      simp only [Bool.not_eq_true']
      rw [← Bool.not_eq_true]
      intro hc
      exact hmem (by simpa using hc)
    have hne : (missingFromPrecedences (ts.map (fun t => t.name)) ps).isEmpty = false := by
      rw [List.isEmpty_eq_false]
      intro hnil
      rw [hnil] at hdn
      exact absurd hdn (List.not_mem_nil n)
    rw [hne] at h
    exact absurd h (by simp)
  · intro p hp d hd
    by_contra hdn
    have hfind : ∀ rest : List (String × List String), p ∈ rest →
        findDangling (ts.map (fun t => t.name)) rest ≠ none := by
      intro rest
      induction rest with
      | nil => intro hmem; exact absurd hmem (List.not_mem_nil p)
      | cons q rrest ih =>
        intro hmem hf
        unfold findDangling at hf
        cases hq : q.2.find? (fun dep => !(ts.map (fun t => t.name)).contains dep) with
        | some dep => rw [hq] at hf; exact absurd hf (by simp)
        | none =>
          rw [hq] at hf
          rcases List.mem_cons.mp hmem with hpq | hprest
          · subst hpq
            have := List.find?_eq_none.mp hq d hd
            simp only [Bool.not_eq_true'] at this
            exact hdn (by simpa using this)
          · exact ih hprest hf
    cases hf : findDangling (ts.map (fun t => t.name)) ps with
    | some td =>
      rw [hf] at h
      by_cases hm : (missingFromPrecedences (ts.map (fun t => t.name)) ps).isEmpty
      · rw [hm] at h
        exact absurd h (by simp)
      · rw [Bool.not_eq_true] at hm
        rw [hm] at h
        exact absurd h (by simp)
    | none => exact hfind ps hp hf

lemma validate_precedences_ok_dag {ts : List Task} {ps : List (String × List String)}
    (h : validate_precedences ts ps = .ok ()) :
    is_directed_acyclic_graph
      (graphNodes (ts.map (fun t => t.name)) (precedenceEdges ps))
      (precedenceEdges ps) = true := by
  rw [validate_precedences_eq] at h
  by_cases hm : (missingFromPrecedences (ts.map (fun t => t.name)) ps).isEmpty
  · rw [hm] at h
    simp only [Bool.not_true, Bool.false_eq_true, if_false] at h
    cases hf : findDangling (ts.map (fun t => t.name)) ps with
    | some td => rw [hf] at h; exact absurd h (by simp)
    | none =>
      rw [hf] at h
      cases hdag : is_directed_acyclic_graph
          (graphNodes (ts.map (fun t => t.name)) (precedenceEdges ps))
          (precedenceEdges ps) with
      | true => rfl
      | false => rw [hdag] at h; exact absurd h (by simp)
  · rw [Bool.not_eq_true] at hm
    rw [hm] at h
    exact absurd h (by simp)

lemma build_max_parallelism_ok {tasks : List (String × Task)}
    {initial : List (String × List String)} {mp : List (String × List String)}
    (h : build_max_parallelism tasks initial = .ok mp) :
    mp = (allPairs (tasks.map (fun p => p.1))).foldl (interferenceStep tasks)
      (initial.map (fun p => (p.1, p.2))) ∧
    is_directed_acyclic_graph
      (graphNodes (tasks.map (fun p => p.1)) (precedenceEdges mp))
      (precedenceEdges mp) = true := by
  rw [build_max_parallelism_eq] at h
  cases hdag : is_directed_acyclic_graph
      (graphNodes (tasks.map (fun p => p.1))
        (precedenceEdges ((allPairs (tasks.map (fun p => p.1))).foldl
          (interferenceStep tasks) (initial.map (fun p => (p.1, p.2))))))
      (precedenceEdges ((allPairs (tasks.map (fun p => p.1))).foldl
        (interferenceStep tasks) (initial.map (fun p => (p.1, p.2))))) with
  | true =>
    rw [hdag] at h
    simp only [Bool.not_true, Bool.false_eq_true, if_false] at h
    cases h
    exact ⟨rfl, hdag⟩
  | false =>
    rw [hdag] at h
    exact absurd h (by simp)

lemma construct_ok {ts : List Task} {ps : List (String × List String)} {st : SystemTask}
    (h : SystemTask.construct ts ps = .ok st) :
    validate_tasks ts = .ok () ∧ validate_precedences ts ps = .ok () ∧
    st.tasks = ts.map (fun t => (t.name, t)) ∧ st.initial_precedences = ps ∧
    build_max_parallelism (ts.map (fun t => (t.name, t))) ps = .ok st.max_parallelism := by
  unfold SystemTask.construct at h
  cases h1 : validate_tasks ts with
  | error e => rw [h1] at h; exact absurd h (by simp)
  | ok u =>
    cases u
    rw [h1] at h
    cases h2 : validate_precedences ts ps with
    | error e => rw [h2] at h; exact absurd h (by simp)
    | ok u2 =>
      cases u2
      rw [h2] at h
      cases h3 : build_max_parallelism (ts.map (fun t => (t.name, t))) ps with
      | error e => rw [h3] at h; exact absurd h (by simp)
      | ok mp =>
        rw [h3] at h
        have heq := Except.ok.inj h
        subst heq
        exact ⟨rfl, rfl, rfl, rfl, rfl⟩

/-- C1. The cycle-after-augmentation branch of `_build_max_parallelism` is
reachable for caller input that passes all four construction-time validation
checks: with tasks enumerated `[C, A, B]` where `C` and `A` both write
`"x"`, and explicit precedences `A → B → C`, both validations succeed, yet
the augmentation adds the edge `C → A` (neither `C` nor `A` directly lists
the other) and the rebuilt graph has the cycle `A → B → C → A`, so
construction raises "Maximum parallelism graph has cycles, which shouldn't
happen" — contradicting the code's own message and the spec's claim that
this state is unreachable. -/
theorem max_parallelism_cycle_error_reachable_for_validated_input :
    validate_tasks
      [⟨"C", [], ["x"], none⟩, ⟨"A", [], ["x"], none⟩, ⟨"B", [], [], none⟩] = .ok () ∧
    validate_precedences
      [⟨"C", [], ["x"], none⟩, ⟨"A", [], ["x"], none⟩, ⟨"B", [], [], none⟩]
      [("A", []), ("B", ["A"]), ("C", ["B"])] = .ok () ∧
    SystemTask.construct
      [⟨"C", [], ["x"], none⟩, ⟨"A", [], ["x"], none⟩, ⟨"B", [], [], none⟩]
      [("A", []), ("B", ["A"]), ("C", ["B"])] = .error .maxParallelismCycle :=
  ⟨rfl, rfl, rfl⟩

/-- C2 (counterexample). Construction does not reject a precedence mapping
whose keys mention a non-task name: with the single task `A` and precedences
`{"A": [], "Z": []}`, construction succeeds even though `"Z"` is stored as a
key of both `initial_precedences` and `max_parallelism` and is not the name
of any task. -/
theorem construct_accepts_phantom_precedence_key :
    SystemTask.construct [⟨"A", [], [], none⟩] [("A", []), ("Z", [])] =
      .ok { tasks := [("A", ⟨"A", [], [], none⟩)],
            initial_precedences := [("A", []), ("Z", [])],
            max_parallelism := [("A", []), ("Z", [])] } ∧
    "Z" ∈ ([("A", ([] : List String)), ("Z", [])].map (fun p => p.1)) ∧
    "Z" ∉ ([⟨"A", [], [], none⟩] : List Task).map (fun t => t.name) :=
  ⟨rfl, by simp, by simp⟩

/-! ## The augmentation only appends dependencies -/

lemma copy_eq (initial : List (String × List String)) :
    initial.map (fun p => (p.1, p.2)) = initial := by
  induction initial with
  | nil => rfl
  | cons p rest ih => rw [List.map_cons, ih]

lemma keys_appendDep (mp : List (String × List String)) (key dep : String) :
    (appendDep mp key dep).map (fun p => p.1) = mp.map (fun p => p.1) := by
  induction mp with
  | nil => rfl
  | cons p rest ih =>
    rcases p with ⟨k, ds⟩
    unfold appendDep
    by_cases hk : (k == key) = true
    · rw [if_pos hk]
      rfl
    · rw [if_neg hk, List.map_cons, List.map_cons, ih]

lemma keys_interferenceStep (tasks : List (String × Task))
    (mp : List (String × List String)) (pr : String × String) :
    (interferenceStep tasks mp pr).map (fun p => p.1) = mp.map (fun p => p.1) := by
  unfold interferenceStep
  by_cases hc : ((lookupDeps mp pr.1).contains pr.2 || (lookupDeps mp pr.2).contains pr.1) = true
  · rw [if_pos hc]
  · rw [if_neg hc]
    cases lookupA tasks pr.1 with
    | none => rfl
    | some t1 =>
      cases lookupA tasks pr.2 with
      | none => rfl
      | some t2 =>
        by_cases hi : are_tasks_interfering t1 t2 = true
        · simp [hi, keys_appendDep]
        · simp [hi]

lemma keys_foldl_interferenceStep (tasks : List (String × Task))
    (pairs : List (String × String)) (mp : List (String × List String)) :
    (pairs.foldl (interferenceStep tasks) mp).map (fun p => p.1) = mp.map (fun p => p.1) := by
  induction pairs generalizing mp with
  | nil => rfl
  | cons pr rest ih =>
    rw [List.foldl_cons, ih, keys_interferenceStep]

lemma lookupDeps_appendDep_ne {mp : List (String × List String)} {key k : String}
    (dep : String) (hne : k ≠ key) :
    lookupDeps (appendDep mp key dep) k = lookupDeps mp k := by
  induction mp with
  | nil => rfl
  | cons p rest ih =>
    rcases p with ⟨k', ds⟩
    unfold appendDep
    by_cases hk : (k' == key) = true
    · rw [if_pos hk]
      have hkk : (k' == k) = false := by
        rw [beq_eq_false_iff_ne]
        intro hc
        exact hne (hc ▸ (beq_iff_eq.mp hk))
      unfold lookupDeps lookupA
      rw [List.find?_cons, List.find?_cons]
      simp only [hkk]
    · rw [if_neg hk]
      unfold lookupDeps lookupA
      rw [List.find?_cons, List.find?_cons]
      by_cases hkk : (k' == k) = true
      · simp only [hkk]
      · rw [Bool.not_eq_true] at hkk
        simp only [hkk]
        exact ih

lemma lookupDeps_appendDep_self {mp : List (String × List String)} {key : String}
    (dep : String) (hmem : key ∈ mp.map (fun p => p.1)) :
    lookupDeps (appendDep mp key dep) key = lookupDeps mp key ++ [dep] := by
  induction mp with
  | nil => exact absurd hmem (List.not_mem_nil key)
  | cons p rest ih =>
    rcases p with ⟨k', ds⟩
    unfold appendDep
    by_cases hk : (k' == key) = true
    · rw [if_pos hk]
      unfold lookupDeps lookupA
      rw [List.find?_cons, List.find?_cons]
      simp only [hk]
      rfl
    · rw [if_neg hk]
      unfold lookupDeps lookupA
      rw [List.find?_cons, List.find?_cons]
      simp only [hk]
      have hmem' : key ∈ rest.map (fun p => p.1) := by
        rw [List.map_cons] at hmem
        rcases List.mem_cons.mp hmem with hcase | hcase
        · exact absurd (beq_iff_eq.mpr hcase.symm) (by simpa using hk)
        · exact hcase
      exact ih hmem'

lemma mem_lookupDeps_appendDep {mp : List (String × List String)} {k d : String}
    (key dep : String) (h : d ∈ lookupDeps mp k) :
    d ∈ lookupDeps (appendDep mp key dep) k := by
  by_cases hk : k = key
  · subst hk
    by_cases hmem : k ∈ mp.map (fun p => p.1)
    · rw [lookupDeps_appendDep_self dep hmem]
      exact List.mem_append_left _ h
    · have : lookupDeps mp k = [] := by
        unfold lookupDeps lookupA
        cases hf : mp.find? (fun p => p.1 == k) with
        | none => rfl
        | some p =>
          have hpm := List.mem_of_find?_eq_some hf
          have hpk := List.find?_some hf
          simp only [beq_iff_eq] at hpk
          exact absurd (List.mem_map.mpr ⟨p, hpm, hpk⟩) hmem
      rw [this] at h
      exact absurd h (List.not_mem_nil d)
  · rw [lookupDeps_appendDep_ne dep hk]
    exact h

lemma mem_lookupDeps_interferenceStep (tasks : List (String × Task))
    {mp : List (String × List String)} {k d : String} (pr : String × String)
    (h : d ∈ lookupDeps mp k) :
    d ∈ lookupDeps (interferenceStep tasks mp pr) k := by
  unfold interferenceStep
  by_cases hc : ((lookupDeps mp pr.1).contains pr.2 || (lookupDeps mp pr.2).contains pr.1) = true
  · rw [if_pos hc]; exact h
  · rw [if_neg hc]
    cases lookupA tasks pr.1 with
    | none => exact h
    | some t1 =>
      cases lookupA tasks pr.2 with
      | none => exact h
      | some t2 =>
        by_cases hi : are_tasks_interfering t1 t2 = true
        · simp only [hi, if_true]
          exact mem_lookupDeps_appendDep pr.2 pr.1 h
        · simp only [hi, if_false]
          exact h

lemma mem_lookupDeps_foldl (tasks : List (String × Task))
    (pairs : List (String × String)) {mp : List (String × List String)} {k d : String}
    (h : d ∈ lookupDeps mp k) :
    d ∈ lookupDeps (pairs.foldl (interferenceStep tasks) mp) k := by
  induction pairs generalizing mp with
  | nil => exact h
  | cons pr rest ih =>
    rw [List.foldl_cons]
    exact ih (mem_lookupDeps_interferenceStep tasks pr h)

lemma mem_precedenceEdges_appendDep {mp : List (String × List String)}
    {e : String × String} (key dep : String) (h : e ∈ precedenceEdges mp) :
    e ∈ precedenceEdges (appendDep mp key dep) := by
  induction mp with
  | nil => exact absurd h (List.not_mem_nil e)
  | cons p rest ih =>
    rcases p with ⟨k', ds⟩
    unfold appendDep
    unfold precedenceEdges at h ⊢
    rw [List.flatMap_cons] at h
    rcases List.mem_append.mp h with hhead | htail
    · by_cases hk : (k' == key) = true
      · rw [if_pos hk, List.flatMap_cons]
        refine List.mem_append.mpr (Or.inl ?_)
        rcases List.mem_map.mp hhead with ⟨x, hx, hex⟩
        exact List.mem_map.mpr ⟨x, List.mem_append_left _ hx, hex⟩
      · rw [if_neg hk, List.flatMap_cons]
        exact List.mem_append.mpr (Or.inl hhead)
    · by_cases hk : (k' == key) = true
      · rw [if_pos hk, List.flatMap_cons]
        exact List.mem_append.mpr (Or.inr htail)
      · rw [if_neg hk, List.flatMap_cons]
        exact List.mem_append.mpr (Or.inr (ih htail))

lemma mem_precedenceEdges_interferenceStep (tasks : List (String × Task))
    {mp : List (String × List String)} {e : String × String} (pr : String × String)
    (h : e ∈ precedenceEdges mp) :
    e ∈ precedenceEdges (interferenceStep tasks mp pr) := by
  unfold interferenceStep
  by_cases hc : ((lookupDeps mp pr.1).contains pr.2 || (lookupDeps mp pr.2).contains pr.1) = true
  · rw [if_pos hc]; exact h
  · rw [if_neg hc]
    cases lookupA tasks pr.1 with
    | none => exact h
    | some t1 =>
      cases lookupA tasks pr.2 with
      | none => exact h
      | some t2 =>
        by_cases hi : are_tasks_interfering t1 t2 = true
        · simp only [hi, if_true]
          exact mem_precedenceEdges_appendDep pr.2 pr.1 h
        · simp only [hi, if_false]
          exact h

lemma mem_precedenceEdges_foldl (tasks : List (String × Task))
    (pairs : List (String × String)) {mp : List (String × List String)} {e : String × String}
    (h : e ∈ precedenceEdges mp) :
    e ∈ precedenceEdges (pairs.foldl (interferenceStep tasks) mp) := by
  induction pairs generalizing mp with
  | nil => exact h
  | cons pr rest ih =>
    rw [List.foldl_cons]
    exact ih (mem_precedenceEdges_interferenceStep tasks pr h)

/-! ## The order and payloads of the construction checks -/

lemma someNameRepeats_iff (ts : List Task) :
    someNameRepeats ts = true ↔ ¬ (ts.map (fun t => t.name)).Nodup := by
  unfold someNameRepeats
  rw [List.any_eq_true, List.nodup_iff_count_le_one]
  constructor
  · rintro ⟨n, hn, hcount⟩
    simp only [decide_eq_true_eq] at hcount
    intro hall
    have := hall n
    omega
  · intro h
    push_neg at h
    rcases h with ⟨a, ha⟩
    refine ⟨a, ?_, by simpa using ha⟩
    have hpos : 0 < (ts.map (fun t => t.name)).count a := by omega
    exact List.count_pos_iff.mp hpos

lemma someTaskUnmapped_iff (ts : List Task) (ps : List (String × List String)) :
    someTaskUnmapped ts ps = true ↔
      (missingFromPrecedences (ts.map (fun t => t.name)) ps).isEmpty = false := by
  unfold someTaskUnmapped missingFromPrecedences
  rw [List.any_eq_true, List.isEmpty_eq_false, Ne, List.filter_eq_nil_iff]
  push_neg
  constructor
  · rintro ⟨n, hn, hcontains⟩
    exact ⟨n, List.mem_dedup.mpr hn, hcontains⟩
  · rintro ⟨n, hn, hcontains⟩
    exact ⟨n, List.mem_dedup.mp hn, hcontains⟩

/-- C5. Construction performs exactly the four validation checks in the
fixed order duplicate-name, missing-mapping-entry, dangling-dependency-value,
explicit-graph-cycle; each failure is a distinct `ConstructionError`
constructor carrying the offending names (the duplicated names as a list,
the missing tasks, the first offending task together with its bad
dependency, or the enumerated cycles), and on failure only the error is
returned — never a partial context.  When all four checks pass, the result
is the built context (or the internal augmentation-cycle error, which is not
a validation check). -/
theorem construction_checks_order_and_payloads (ts : List Task)
    (ps : List (String × List String)) :
    SystemTask.construct ts ps =
      if someNameRepeats ts then
        .error (.duplicateNames (duplicateNamesOf (ts.map (fun t => t.name))))
      else if someTaskUnmapped ts ps then
        .error (.tasksMissingFromPrecedences
          (missingFromPrecedences (ts.map (fun t => t.name)) ps))
      else
        match findDangling (ts.map (fun t => t.name)) ps with
        | some td => .error (.nonExistentDependency td.2 td.1)
        | none =>
          if !is_directed_acyclic_graph
              (graphNodes (ts.map (fun t => t.name)) (precedenceEdges ps))
              (precedenceEdges ps) then
            .error (.cyclicDependencies
              (simple_cycles (graphNodes (ts.map (fun t => t.name)) (precedenceEdges ps))
                (precedenceEdges ps)))
          else
            match build_max_parallelism (ts.map (fun t => (t.name, t))) ps with
            | .error e => .error e
            | .ok mp =>
              .ok { tasks := ts.map (fun t => (t.name, t)), initial_precedences := ps,
                    max_parallelism := mp } := by
  unfold SystemTask.construct
  by_cases hn : (ts.map (fun t => t.name)).Nodup
  · have h1 : validate_tasks ts = .ok () := validate_tasks_ok_iff.mpr hn
    have h2 : someNameRepeats ts = false := by
      cases hcase : someNameRepeats ts
      · rfl
      · exact absurd ((someNameRepeats_iff ts).mp hcase) (not_not_intro hn)
    rw [h1, h2, validate_precedences_eq]
    cases hm : (missingFromPrecedences (ts.map (fun t => t.name)) ps).isEmpty
    · have h3 : someTaskUnmapped ts ps = true := (someTaskUnmapped_iff ts ps).mpr hm
      rw [h3]
      rfl
    · have h3 : someTaskUnmapped ts ps = false := by
        cases hcase : someTaskUnmapped ts ps
        · rfl
        · rw [(someTaskUnmapped_iff ts ps).mp hcase] at hm
          exact absurd hm (by simp)
      rw [h3]
      cases hf : findDangling (ts.map (fun t => t.name)) ps
      · cases hdag : is_directed_acyclic_graph
            (graphNodes (ts.map (fun t => t.name)) (precedenceEdges ps)) (precedenceEdges ps)
        · rfl
        · cases hb : build_max_parallelism (ts.map (fun t => (t.name, t))) ps
          · rfl
          · rfl
      · rfl
  · have h1 : validate_tasks ts =
        .error (.duplicateNames (duplicateNamesOf (ts.map (fun t => t.name)))) := by
      rw [validate_tasks_eq, if_pos]
      intro heq
      exact hn (nodup_of_dedup_length heq)
    have h2 : someNameRepeats ts = true := (someNameRepeats_iff ts).mpr hn
    rw [h1, h2]
    rfl

/-! ## Values stored in the precedence structures -/

lemma valuesSubset_appendDep {mp : List (String × List String)} {S : List String}
    {key dep : String} (hmp : ∀ p ∈ mp, ∀ d ∈ p.2, d ∈ S) (hdep : dep ∈ S) :
    ∀ p ∈ appendDep mp key dep, ∀ d ∈ p.2, d ∈ S := by
  induction mp with
  | nil => intro p hp; exact absurd hp (List.not_mem_nil p)
  | cons q rest ih =>
    rcases q with ⟨k', ds⟩
    unfold appendDep
    by_cases hk : (k' == key) = true
    · rw [if_pos hk]
      intro p hp d hd
      rcases List.mem_cons.mp hp with hph | hpt
      · subst hph
        rcases List.mem_append.mp hd with hdd | hdd
        · exact hmp (k', ds) (List.mem_cons_self _ _) d hdd
        · rw [List.mem_singleton] at hdd
          subst hdd
          exact hdep
      · exact hmp p (List.mem_cons_of_mem _ hpt) d hd
    · rw [if_neg hk]
      intro p hp d hd
      rcases List.mem_cons.mp hp with hph | hpt
      · subst hph
        exact hmp (k', ds) (List.mem_cons_self _ _) d hd
      · exact ih (fun q hq => hmp q (List.mem_cons_of_mem _ hq)) p hpt d hd

lemma valuesSubset_interferenceStep (tasks : List (String × Task))
    {mp : List (String × List String)} {S : List String} {pr : String × String}
    (hmp : ∀ p ∈ mp, ∀ d ∈ p.2, d ∈ S) (hpr : pr.1 ∈ S) :
    ∀ p ∈ interferenceStep tasks mp pr, ∀ d ∈ p.2, d ∈ S := by
  unfold interferenceStep
  by_cases hc : ((lookupDeps mp pr.1).contains pr.2 || (lookupDeps mp pr.2).contains pr.1) = true
  · rw [if_pos hc]; exact hmp
  · rw [if_neg hc]
    cases lookupA tasks pr.1 with
    | none => exact hmp
    | some t1 =>
      cases lookupA tasks pr.2 with
      | none => exact hmp
      | some t2 =>
        by_cases hi : are_tasks_interfering t1 t2 = true
        · simp only [hi, if_true]
          exact valuesSubset_appendDep hmp hpr
        · simp only [hi]
          simpa using hmp

lemma valuesSubset_foldl (tasks : List (String × Task))
    {pairs : List (String × String)} {mp : List (String × List String)} {S : List String}
    (hmp : ∀ p ∈ mp, ∀ d ∈ p.2, d ∈ S) (hpairs : ∀ pr ∈ pairs, pr.1 ∈ S) :
    ∀ p ∈ pairs.foldl (interferenceStep tasks) mp, ∀ d ∈ p.2, d ∈ S := by
  induction pairs generalizing mp with
  | nil => exact hmp
  | cons pr rest ih =>
    rw [List.foldl_cons]
    exact ih (valuesSubset_interferenceStep tasks hmp (hpairs pr (List.mem_cons_self _ _)))
      (fun q hq => hpairs q (List.mem_cons_of_mem _ hq))

lemma mem_allPairs_fst {α : Type} {pr : α × α} {l : List α} (h : pr ∈ allPairs l) :
    pr.1 ∈ l := by
  induction l with
  | nil => exact absurd h (List.not_mem_nil pr)
  | cons x xs ih =>
    unfold allPairs at h
    rcases List.mem_append.mp h with hh | ht
    · rcases List.mem_map.mp hh with ⟨y, hy, hpy⟩
      rw [← hpy]
      exact List.mem_cons_self _ _
    · exact List.mem_cons_of_mem _ (ih ht)

/-- C2 (amended). For every successfully constructed `SystemTask`: every
task name appears as a key of `initial_precedences` and of
`max_parallelism`, and every name appearing as a dependency value in either
structure is the name of a real task.  (Keys need not name tasks: the
counterexample `construct_accepts_phantom_precedence_key` shows a
non-task key surviving construction.) -/
theorem stored_precedences_keys_and_values {ts : List Task}
    {ps : List (String × List String)} {st : SystemTask}
    (h : SystemTask.construct ts ps = .ok st) :
    (∀ t ∈ ts, t.name ∈ st.initial_precedences.map (fun p => p.1) ∧
      t.name ∈ st.max_parallelism.map (fun p => p.1)) ∧
    (∀ p ∈ st.initial_precedences, ∀ d ∈ p.2, d ∈ ts.map (fun t => t.name)) ∧
    (∀ p ∈ st.max_parallelism, ∀ d ∈ p.2, d ∈ ts.map (fun t => t.name)) := by
  obtain ⟨-, hvp, htasks, hinit, hbuild⟩ := construct_ok h
  obtain ⟨htotal, hvalues⟩ := validate_precedences_ok hvp
  obtain ⟨hmp, -⟩ := build_max_parallelism_ok hbuild
  rw [copy_eq] at hmp
  have hkeys : st.max_parallelism.map (fun p => p.1) = ps.map (fun p => p.1) := by
    rw [hmp, keys_foldl_interferenceStep]
  subst hinit
  refine ⟨?_, hvalues, ?_⟩
  · intro t ht
    have hname : t.name ∈ ts.map (fun t => t.name) := List.mem_map.mpr ⟨t, ht, rfl⟩
    exact ⟨htotal t.name hname, by rw [hkeys]; exact htotal t.name hname⟩
  · rw [hmp]
    refine valuesSubset_foldl _ hvalues ?_
    intro pr hpr
    simpa using mem_allPairs_fst hpr

/-- Witness for C2 (amended) at a concrete input: tasks `A`, `B` with the
explicit dependency `A` before `B`. -/
theorem stored_precedences_keys_and_values_witness :
    (SystemTask.construct [⟨"A", [], [], none⟩, ⟨"B", [], [], none⟩]
        [("A", []), ("B", ["A"])] =
      .ok { tasks := [("A", ⟨"A", [], [], none⟩), ("B", ⟨"B", [], [], none⟩)],
            initial_precedences := [("A", []), ("B", ["A"])],
            max_parallelism := [("A", []), ("B", ["A"])] }) ∧
    ((∀ t ∈ ([⟨"A", [], [], none⟩, ⟨"B", [], [], none⟩] : List Task),
        t.name ∈ [("A", ([] : List String)), ("B", ["A"])].map (fun p => p.1) ∧
        t.name ∈ [("A", ([] : List String)), ("B", ["A"])].map (fun p => p.1)) ∧
      (∀ p ∈ [("A", ([] : List String)), ("B", ["A"])], ∀ d ∈ p.2,
        d ∈ ([⟨"A", [], [], none⟩, ⟨"B", [], [], none⟩] : List Task).map (fun t => t.name)) ∧
      (∀ p ∈ [("A", ([] : List String)), ("B", ["A"])], ∀ d ∈ p.2,
        d ∈ ([⟨"A", [], [], none⟩, ⟨"B", [], [], none⟩] : List Task).map (fun t => t.name))) :=
  ⟨rfl, @stored_precedences_keys_and_values
    [⟨"A", [], [], none⟩, ⟨"B", [], [], none⟩] [("A", []), ("B", ["A"])]
    { tasks := [("A", ⟨"A", [], [], none⟩), ("B", ⟨"B", [], [], none⟩)],
      initial_precedences := [("A", []), ("B", ["A"])],
      max_parallelism := [("A", []), ("B", ["A"])] } rfl⟩

/-- C4. For every successfully constructed `SystemTask`, the
maximum-parallelism graph's edges are a superset of the explicit graph's
edges: every edge built from `initial_precedences` is an edge of
`max_parallelism`, and entry-wise every dependency listed for a name in
`initial_precedences` is still listed for that name in `max_parallelism`. -/
theorem max_parallelism_superset_of_initial {ts : List Task}
    {ps : List (String × List String)} {st : SystemTask}
    (h : SystemTask.construct ts ps = .ok st) :
    (∀ e ∈ precedenceEdges st.initial_precedences, e ∈ precedenceEdges st.max_parallelism) ∧
    (∀ n d, d ∈ lookupDeps st.initial_precedences n → d ∈ lookupDeps st.max_parallelism n) := by
  obtain ⟨-, -, -, hinit, hbuild⟩ := construct_ok h
  obtain ⟨hmp, -⟩ := build_max_parallelism_ok hbuild
  rw [copy_eq] at hmp
  subst hinit
  constructor
  · intro e he
    rw [hmp]
    exact mem_precedenceEdges_foldl _ _ he
  · intro n d hd
    rw [hmp]
    exact mem_lookupDeps_foldl _ _ hd

/-- Witness for C4 at a concrete input: two tasks `A`, `B` with the explicit
dependency `B` after `A` construct successfully, and the explicit edge
`(A, B)` also appears in the maximum-parallelism structure. -/
theorem max_parallelism_superset_witness :
    (SystemTask.construct [⟨"A", [], [], none⟩, ⟨"B", [], [], none⟩]
        [("A", []), ("B", ["A"])] =
      .ok { tasks := [("A", ⟨"A", [], [], none⟩), ("B", ⟨"B", [], [], none⟩)],
            initial_precedences := [("A", []), ("B", ["A"])],
            max_parallelism := [("A", []), ("B", ["A"])] }) ∧
    (("A", "B") ∈ precedenceEdges [("A", []), ("B", ["A"])] ∧
      ("A", "B") ∈ precedenceEdges
        ({ tasks := [("A", ⟨"A", [], [], none⟩), ("B", ⟨"B", [], [], none⟩)],
           initial_precedences := [("A", []), ("B", ["A"])],
           max_parallelism := [("A", []), ("B", ["A"])] } : SystemTask).max_parallelism) := by
  refine ⟨rfl, by decide, ?_⟩
  exact (@max_parallelism_superset_of_initial
    [⟨"A", [], [], none⟩, ⟨"B", [], [], none⟩] [("A", []), ("B", ["A"])]
    { tasks := [("A", ⟨"A", [], [], none⟩), ("B", ⟨"B", [], [], none⟩)],
      initial_precedences := [("A", []), ("B", ["A"])],
      max_parallelism := [("A", []), ("B", ["A"])] } rfl).1 ("A", "B") (by decide)

/-! ## Graph-node and lookup lemmas -/

lemma mem_addNode_of_mem {nodes : List String} {n : String} (x : String) (h : n ∈ nodes) :
    n ∈ addNode nodes x := by
  unfold addNode
  by_cases hc : nodes.contains x = true
  · rw [if_pos hc]; exact h
  · rw [if_neg hc]; exact List.mem_append_left _ h

lemma mem_graphNodes_of_mem {nodes : List String} (edges : List (String × String))
    {n : String} (h : n ∈ nodes) : n ∈ graphNodes nodes edges := by
  induction edges generalizing nodes with
  | nil => exact h
  | cons e rest ih =>
    unfold graphNodes
    rw [List.foldl_cons]
    exact ih (mem_addNode_of_mem e.2 (mem_addNode_of_mem e.1 h))

lemma addNode_eq_self {nodes : List String} {x : String} (h : x ∈ nodes) :
    addNode nodes x = nodes := by
  unfold addNode
  rw [if_pos (by simpa using h)]

lemma graphNodes_eq_self {nodes : List String} {edges : List (String × String)}
    (h : ∀ e ∈ edges, e.1 ∈ nodes ∧ e.2 ∈ nodes) : graphNodes nodes edges = nodes := by
  induction edges with
  | nil => rfl
  | cons e rest ih =>
    unfold graphNodes
    rw [List.foldl_cons]
    have h1 := (h e (List.mem_cons_self _ _)).1
    have h2 := (h e (List.mem_cons_self _ _)).2
    rw [addNode_eq_self h1, addNode_eq_self h2]
    exact ih (fun e' he' => h e' (List.mem_cons_of_mem _ he'))

lemma addNode_nodup {nodes : List String} {x : String} (h : nodes.Nodup) :
    (addNode nodes x).Nodup := by
  unfold addNode
  by_cases hc : nodes.contains x = true
  · rw [if_pos hc]; exact h
  · rw [if_neg hc]
    refine List.Nodup.append h (List.nodup_singleton x) ?_
    intro a ha hax
    rw [List.mem_singleton] at hax
    subst hax
    exact hc (by simpa using ha)

lemma graphNodes_nodup {nodes : List String} (edges : List (String × String))
    (h : nodes.Nodup) : (graphNodes nodes edges).Nodup := by
  induction edges generalizing nodes with
  | nil => exact h
  | cons e rest ih =>
    unfold graphNodes
    rw [List.foldl_cons]
    exact ih (addNode_nodup (addNode_nodup h))

lemma mem_precedenceEdges_iff {mp : List (String × List String)} {e : String × String} :
    e ∈ precedenceEdges mp ↔ ∃ p ∈ mp, e.2 = p.1 ∧ e.1 ∈ p.2 := by
  unfold precedenceEdges
  rw [List.mem_flatMap]
  constructor
  · rintro ⟨p, hp, he⟩
    rcases List.mem_map.mp he with ⟨d, hd, hde⟩
    subst hde
    exact ⟨p, hp, rfl, hd⟩
  · rintro ⟨p, hp, h2, h1⟩
    refine ⟨p, hp, List.mem_map.mpr ⟨e.1, h1, ?_⟩⟩
    rw [← h2]

lemma lookupDeps_entry {mp : List (String × List String)} {k d : String}
    (h : d ∈ lookupDeps mp k) : ∃ p ∈ mp, p.1 = k ∧ d ∈ p.2 := by
  unfold lookupDeps lookupA at h
  cases hf : mp.find? (fun p => p.1 == k) with
  | none => rw [hf] at h; exact absurd h (List.not_mem_nil d)
  | some p =>
    rw [hf] at h
    have hpk := List.find?_some hf
    simp only [beq_iff_eq] at hpk
    exact ⟨p, List.mem_of_find?_eq_some hf, hpk, by simpa using h⟩

lemma mem_precedenceEdges_of_lookupDeps {mp : List (String × List String)} {k d : String}
    (h : d ∈ lookupDeps mp k) : (d, k) ∈ precedenceEdges mp := by
  rcases lookupDeps_entry h with ⟨p, hp, hpk, hd⟩
  exact mem_precedenceEdges_iff.mpr ⟨p, hp, by simpa using hpk.symm, by simpa using hd⟩

lemma lookupA_taskDict (ts : List Task) (n : String) :
    lookupA (ts.map (fun t => (t.name, t))) n = ts.find? (fun t => t.name == n) := by
  induction ts with
  | nil => rfl
  | cons t rest ih =>
    unfold lookupA at ih ⊢
    rw [List.map_cons, List.find?_cons, List.find?_cons]
    by_cases hc : (t.name == n) = true
    · simp only [hc]
      rfl
    · rw [Bool.not_eq_true] at hc
      simp only [hc]
      exact ih

lemma find?_name_eq_self {ts : List Task} {t : Task}
    (hnodup : (ts.map (fun t => t.name)).Nodup) (ht : t ∈ ts) :
    ts.find? (fun x => x.name == t.name) = some t := by
  induction ts with
  | nil => exact absurd ht (List.not_mem_nil t)
  | cons q rest ih =>
    rw [List.map_cons, List.nodup_cons] at hnodup
    rw [List.find?_cons]
    rcases List.mem_cons.mp ht with hth | htt
    · subst hth
      simp
    · have hne : (q.name == t.name) = false := by
        rw [beq_eq_false_iff_ne]
        intro hc
        exact hnodup.1 (hc ▸ List.mem_map.mpr ⟨t, htt, rfl⟩)
      simp only [hne]
      exact ih hnodup.2 htt

/-! ## Kahn's algorithm: permutation and edge-respecting order -/

lemma kahn_perm {edges : List (String × String)} :
    ∀ {fuel : Nat} {remaining order : List String},
      kahn edges fuel remaining = some order → order.Perm remaining := by
  intro fuel
  induction fuel with
  | zero =>
    intro remaining order h
    unfold kahn at h
    by_cases he : remaining.isEmpty = true
    · rw [if_pos he] at h
      cases h
      rw [List.isEmpty_iff.mp he]
    · rw [if_neg he] at h
      exact absurd h (by simp)
  | succ fuel ih =>
    intro remaining order h
    unfold kahn at h
    by_cases he : remaining.isEmpty = true
    · rw [if_pos he] at h
      cases h
      rw [List.isEmpty_iff.mp he]
    · rw [if_neg he] at h
      cases hf : findReady edges remaining with
      | none => rw [hf] at h; exact absurd h (by simp)
      | some n =>
        rw [hf] at h
        rcases Option.map_eq_some'.mp h with ⟨order', horder', heq⟩
        subst heq
        have hn : n ∈ remaining := List.mem_of_find?_eq_some hf
        exact (List.Perm.cons n (ih horder')).trans (List.perm_cons_erase hn).symm

lemma isBefore_mem_right {l : List String} {u v : String} (h : isBefore l u v = true) :
    v ∈ l := by
  induction l with
  | nil => exact absurd h (by simp [isBefore])
  | cons x xs ih =>
    unfold isBefore at h
    rcases Bool.or_eq_true_iff.mp h with hl | hr
    · exact List.mem_cons_of_mem _ (by simpa using (Bool.and_eq_true_iff.mp hl).2)
    · exact List.mem_cons_of_mem _ (ih hr)

lemma kahn_isBefore {edges : List (String × String)} :
    ∀ {fuel : Nat} {remaining order : List String},
      kahn edges fuel remaining = some order →
      ∀ {u v : String}, (u, v) ∈ edges → u ∈ remaining → v ∈ order →
      isBefore order u v = true := by
  intro fuel
  induction fuel with
  | zero =>
    intro remaining order h u v he hu hv
    unfold kahn at h
    by_cases hemp : remaining.isEmpty = true
    · rw [if_pos hemp] at h
      cases h
      exact absurd hv (List.not_mem_nil v)
    · rw [if_neg hemp] at h
      exact absurd h (by simp)
  | succ fuel ih =>
    intro remaining order h u v he hu hv
    unfold kahn at h
    by_cases hemp : remaining.isEmpty = true
    · rw [if_pos hemp] at h
      cases h
      exact absurd hv (List.not_mem_nil v)
    · rw [if_neg hemp] at h
      cases hf : findReady edges remaining with
      | none => rw [hf] at h; exact absurd h (by simp)
      | some n =>
        rw [hf] at h
        rcases Option.map_eq_some'.mp h with ⟨order', horder', heq⟩
        subst heq
        have hready := List.find?_some hf
        simp only [Bool.not_eq_true'] at hready
        have hnoincoming : ∀ e ∈ edges, ¬(e.2 = n ∧ e.1 ∈ remaining) := by
          intro e hee hcon
          have := List.any_eq_false.mp hready e hee
          simp only [Bool.and_eq_true, beq_iff_eq] at this
          exact this ⟨hcon.1, by simpa using hcon.2⟩
        by_cases hvn : v = n
        · subst hvn
          exact absurd ⟨rfl, hu⟩ (hnoincoming (u, v) he)
        · have hv' : v ∈ order' := by
            rcases List.mem_cons.mp hv with hc | hc
            · exact absurd hc hvn
            · exact hc
          by_cases hun : u = n
          · subst hun
            unfold isBefore
            refine Bool.or_eq_true_iff.mpr (Or.inl ?_)
            rw [Bool.and_eq_true_iff]
            exact ⟨by simp, by simpa using hv'⟩
          · have hu' : u ∈ remaining.erase n := List.mem_erase_of_ne hun |>.mpr hu
            have := ih horder' he hu' hv'
            unfold isBefore
            exact Bool.or_eq_true_iff.mpr (Or.inr this)

lemma find?_decomp {α : Type} {l : List α} {p : α → Bool} {v : α}
    (h : l.find? p = some v) :
    ∃ l1 l2, l = l1 ++ v :: l2 ∧ ∀ x ∈ l1, p x = false := by
  induction l with
  | nil => exact absurd h (by simp)
  | cons x xs ih =>
    rw [List.find?_cons] at h
    by_cases hp : p x = true
    · simp only [hp] at h
      cases h
      exact ⟨[], xs, rfl, by intro y hy; exact absurd hy (List.not_mem_nil y)⟩
    · rw [Bool.not_eq_true] at hp
      simp only [hp] at h
      rcases ih h with ⟨l1, l2, heq, hall⟩
      refine ⟨x :: l1, l2, by rw [heq]; rfl, ?_⟩
      intro y hy
      rcases List.mem_cons.mp hy with hc | hc
      · subst hc; exact hp
      · exact hall y hc

lemma isBefore_decomp_mem {l1 l2 : List String} {u v : String}
    (hnodup : (l1 ++ v :: l2).Nodup) (h : isBefore (l1 ++ v :: l2) u v = true) :
    u ∈ l1 := by
  induction l1 with
  | nil =>
    rw [List.nil_append] at hnodup h
    rw [List.nodup_cons] at hnodup
    exfalso
    unfold isBefore at h
    rcases Bool.or_eq_true_iff.mp h with hl | hr
    · exact hnodup.1 (by simpa using (Bool.and_eq_true_iff.mp hl).2)
    · exact hnodup.1 (isBefore_mem_right hr)
  | cons x xs ih =>
    rw [List.cons_append] at hnodup h
    rw [List.nodup_cons] at hnodup
    unfold isBefore at h
    rcases Bool.or_eq_true_iff.mp h with hl | hr
    · rcases Bool.and_eq_true_iff.mp hl with ⟨hx, -⟩
      rw [beq_iff_eq] at hx
      rw [← hx]
      exact List.mem_cons_self _ _
    · exact List.mem_cons_of_mem _ (ih hnodup.2 hr)

lemma isBefore_filter {l : List String} {u v : String} (p : String → Bool)
    (h : isBefore l u v = true) (hu : p u = true) (hv : p v = true) :
    isBefore (l.filter p) u v = true := by
  induction l with
  | nil => exact absurd h (by simp [isBefore])
  | cons x xs ih =>
    unfold isBefore at h
    rcases Bool.or_eq_true_iff.mp h with hl | hr
    · rcases Bool.and_eq_true_iff.mp hl with ⟨hx, hcont⟩
      rw [beq_iff_eq] at hx
      subst hx
      rw [List.filter_cons_of_pos hu]
      unfold isBefore
      refine Bool.or_eq_true_iff.mpr (Or.inl ?_)
      rw [Bool.and_eq_true_iff]
      refine ⟨by simp, ?_⟩
      have : v ∈ xs.filter p := List.mem_filter.mpr ⟨by simpa using hcont, hv⟩
      simpa using this
    · have := ih hr
      by_cases hx : p x = true
      · rw [List.filter_cons_of_pos hx]
        unfold isBefore
        exact Bool.or_eq_true_iff.mpr (Or.inr this)
      · rw [Bool.not_eq_true] at hx
        rw [List.filter_cons_of_neg (by simp [hx])]
        exact this

/-! ## The sequential action loop -/

lemma execActions_all_ok {tasks : List (String × Task)} :
    ∀ {order : List String},
      (∀ n ∈ order, ∃ t, lookupA tasks n = some t ∧ t.run ≠ some false) →
      execActions tasks order = (order.filter (hasAction tasks), true) := by
  intro order
  induction order with
  | nil => intro h; rfl
  | cons n rest ih =>
    intro h
    rcases h n (List.mem_cons_self _ _) with ⟨t, hlook, hrun⟩
    have hrest := ih (fun m hm => h m (List.mem_cons_of_mem _ hm))
    cases ht : t.run with
    | none =>
      have hfa : hasAction tasks n = false := by
        simp only [hasAction, hlook, ht]
        rfl
      simp only [execActions, hlook, ht, hrest]
      rw [List.filter_cons_of_neg (by simp [hfa])]
    | some b =>
      cases b with
      | false => exact absurd ht hrun
      | true =>
        have hfa : hasAction tasks n = true := by
          simp only [hasAction, hlook, ht]
          rfl
        simp only [execActions, hlook, ht, hrest]
        rw [List.filter_cons_of_pos hfa]

lemma execActions_fails {tasks : List (String × Task)} :
    ∀ {l1 : List String} {f : String} {l2 : List String} {tf : Task},
      (∀ n ∈ l1, ∃ t, lookupA tasks n = some t ∧ t.run ≠ some false) →
      lookupA tasks f = some tf → tf.run = some false →
      execActions tasks (l1 ++ f :: l2) =
        (l1.filter (hasAction tasks) ++ [f], false) := by
  intro l1
  induction l1 with
  | nil =>
    intro f l2 tf hok hlook hrun
    rw [List.nil_append]
    simp only [execActions, hlook, hrun]
    rfl
  | cons n rest ih =>
    intro f l2 tf hok hlook hrun
    rcases hok n (List.mem_cons_self _ _) with ⟨t, hl, hr⟩
    rw [List.cons_append]
    have hrest := @ih f l2 tf (fun m hm => hok m (List.mem_cons_of_mem _ hm)) hlook hrun
    cases ht : t.run with
    | none =>
      have hfa : hasAction tasks n = false := by
        simp only [hasAction, hl, ht]
        rfl
      simp only [execActions, hl, ht, hrest]
      rw [List.filter_cons_of_neg (by simp [hfa])]
    | some b =>
      cases b with
      | false => exact absurd ht hr
      | true =>
        have hfa : hasAction tasks n = true := by
          simp only [hasAction, hl, ht]
          rfl
        simp only [execActions, hl, ht, hrest]
        rw [List.filter_cons_of_pos hfa]
        rfl

/-! ## The topological order of a successfully constructed system -/

lemma taskDict_fst (ts : List Task) :
    (ts.map (fun t => (t.name, t))).map (fun p => p.1) = ts.map (fun t => t.name) := by
  rw [List.map_map]
  rfl

lemma lookup_of_mem_names {ts : List Task} {n : String}
    (hnodup : (ts.map (fun t => t.name)).Nodup) (hn : n ∈ ts.map (fun t => t.name)) :
    ∃ t, lookupA (ts.map (fun t => (t.name, t))) n = some t ∧ t ∈ ts ∧ t.name = n := by
  rcases List.mem_map.mp hn with ⟨t, ht, rfl⟩
  exact ⟨t, by rw [lookupA_taskDict]; exact find?_name_eq_self hnodup ht, ht, rfl⟩

lemma construct_ok_graph {ts : List Task} {ps : List (String × List String)}
    {st : SystemTask} (h : SystemTask.construct ts ps = .ok st)
    (hkeys : ∀ k ∈ ps.map (fun p => p.1), k ∈ ts.map (fun t => t.name)) :
    graphNodes (st.tasks.map (fun p => p.1)) (precedenceEdges st.max_parallelism) =
      ts.map (fun t => t.name) ∧
    ∃ order,
      topoSort (graphNodes (st.tasks.map (fun p => p.1)) (precedenceEdges st.max_parallelism))
        (precedenceEdges st.max_parallelism) = some order ∧
      order.Perm (ts.map (fun t => t.name)) ∧
      (∀ u v, (u, v) ∈ precedenceEdges st.max_parallelism → isBefore order u v = true) := by
  obtain ⟨hvt, hvp, htasks, hinit, hbuild⟩ := construct_ok h
  have hnodup := validate_tasks_ok_iff.mp hvt
  obtain ⟨htotal, hvalues⟩ := validate_precedences_ok hvp
  obtain ⟨hmp, hdag⟩ := build_max_parallelism_ok hbuild
  rw [copy_eq] at hmp
  have hkeysmp : st.max_parallelism.map (fun p => p.1) = ps.map (fun p => p.1) := by
    rw [hmp]
    rw [keys_foldl_interferenceStep]
  have hvaluesmp : ∀ p ∈ st.max_parallelism, ∀ d ∈ p.2, d ∈ ts.map (fun t => t.name) := by
    rw [hmp]
    refine valuesSubset_foldl _ hvalues ?_
    · intro pr hpr
      have := mem_allPairs_fst hpr
      rw [taskDict_fst] at this
      exact this
  have hends : ∀ e ∈ precedenceEdges st.max_parallelism,
      e.1 ∈ ts.map (fun t => t.name) ∧ e.2 ∈ ts.map (fun t => t.name) := by
    intro e he
    rcases mem_precedenceEdges_iff.mp he with ⟨p, hp, h2, h1⟩
    refine ⟨hvaluesmp p hp e.1 h1, ?_⟩
    have hpk : e.2 ∈ st.max_parallelism.map (fun p => p.1) :=
      List.mem_map.mpr ⟨p, hp, h2.symm⟩
    rw [hkeysmp] at hpk
    exact hkeys e.2 hpk
  have hGN : graphNodes (st.tasks.map (fun p => p.1)) (precedenceEdges st.max_parallelism) =
      ts.map (fun t => t.name) := by
    rw [htasks, taskDict_fst]
    exact graphNodes_eq_self hends
  refine ⟨hGN, ?_⟩
  rw [taskDict_fst] at hdag
  have hdag' : is_directed_acyclic_graph (ts.map (fun t => t.name))
      (precedenceEdges st.max_parallelism) = true := by
    have hGN' : graphNodes (ts.map (fun t => t.name)) (precedenceEdges st.max_parallelism) =
        ts.map (fun t => t.name) := graphNodes_eq_self hends
    rw [hGN'] at hdag
    exact hdag
  unfold is_directed_acyclic_graph at hdag'
  rcases Option.isSome_iff_exists.mp hdag' with ⟨order, horder⟩
  refine ⟨order, ?_, ?_, ?_⟩
  · rw [hGN]
    exact horder
  · have := kahn_perm horder
    exact this
  · intro u v huv
    refine kahn_isBefore horder huv (hends (u, v) huv).1 ?_
    exact (kahn_perm horder).mem_iff.mpr (hends (u, v) huv).2

lemma runSeq_eq (st : SystemTask) :
    st.runSeq =
      (topoSort (graphNodes (st.tasks.map (fun p => p.1)) (precedenceEdges st.max_parallelism))
        (precedenceEdges st.max_parallelism)).map (execActions st.tasks) := rfl

/-- C6. For a successfully constructed system (over a precedence mapping
whose keys name tasks, per the data model) whose actions all return
normally, `runSeq` computes one topological order of the maximum-parallelism
graph — a permutation of the task names in which every edge's source comes
strictly before its target — and invokes each task's action exactly once in
that order, returning normally; in particular for every edge (u → v) whose
two endpoints have actions, u's action runs strictly before v's. -/
theorem runSeq_executes_each_action_once_in_edge_order {ts : List Task}
    {ps : List (String × List String)} {st : SystemTask}
    (h : SystemTask.construct ts ps = .ok st)
    (hkeys : ∀ k ∈ ps.map (fun p => p.1), k ∈ ts.map (fun t => t.name))
    (hrun : ∀ t ∈ ts, t.run ≠ some false) :
    ∃ order,
      topoSort (graphNodes (st.tasks.map (fun p => p.1)) (precedenceEdges st.max_parallelism))
        (precedenceEdges st.max_parallelism) = some order ∧
      order.Perm (ts.map (fun t => t.name)) ∧
      (∀ u v, (u, v) ∈ precedenceEdges st.max_parallelism → isBefore order u v = true) ∧
      st.runSeq = some (order.filter (hasAction st.tasks), true) ∧
      (∀ t ∈ ts, t.run.isSome = true → (order.filter (hasAction st.tasks)).count t.name = 1) ∧
      (∀ u v, (u, v) ∈ precedenceEdges st.max_parallelism → hasAction st.tasks u = true →
        hasAction st.tasks v = true →
        isBefore (order.filter (hasAction st.tasks)) u v = true) := by
  obtain ⟨hGN, order, horder, hperm, hresp⟩ := construct_ok_graph h hkeys
  obtain ⟨hvt, -, htasks, -, -⟩ := construct_ok h
  have hnodup := validate_tasks_ok_iff.mp hvt
  have hordernodup : order.Nodup := (hperm.nodup_iff).mpr hnodup
  have hlookups : ∀ n ∈ order, ∃ t, lookupA st.tasks n = some t ∧ t.run ≠ some false := by
    intro n hn
    have hn' : n ∈ ts.map (fun t => t.name) := hperm.mem_iff.mp hn
    rcases lookup_of_mem_names hnodup hn' with ⟨t, hlook, ht, -⟩
    exact ⟨t, by rw [htasks]; exact hlook, hrun t ht⟩
  refine ⟨order, horder, hperm, hresp, ?_, ?_, ?_⟩
  · rw [runSeq_eq, horder, Option.map_some']
    rw [execActions_all_ok hlookups]
  · intro t ht hsome
    have hmemn : t.name ∈ order := hperm.mem_iff.mpr (List.mem_map.mpr ⟨t, ht, rfl⟩)
    have hfa : hasAction st.tasks t.name = true := by
      have hlook : lookupA st.tasks t.name = some t := by
        rw [htasks, lookupA_taskDict]
        exact find?_name_eq_self hnodup ht
      simp only [hasAction, hlook]
      exact hsome
    have hmemf : t.name ∈ order.filter (hasAction st.tasks) :=
      List.mem_filter.mpr ⟨hmemn, hfa⟩
    exact List.count_eq_one_of_mem (hordernodup.filter _) hmemf
  · intro u v huv hu hv
    exact isBefore_filter _ (hresp u v huv) hu hv

/-! ## Failure propagation in the sequential run -/

lemma failsAt_false_elim {tasks : List (String × Task)} {n : String} {t : Task}
    (hf : failsAt tasks n = false) (hlook : lookupA tasks n = some t) :
    t.run ≠ some false := by
  unfold failsAt at hf
  rw [hlook] at hf
  simp only [beq_eq_false_iff_ne] at hf
  exact hf

lemma failsAt_true_elim {tasks : List (String × Task)} {n : String}
    (hf : failsAt tasks n = true) :
    ∃ t, lookupA tasks n = some t ∧ t.run = some false := by
  unfold failsAt at hf
  cases hlook : lookupA tasks n with
  | none => rw [hlook] at hf; exact absurd hf (by simp)
  | some t =>
    rw [hlook] at hf
    rw [beq_iff_eq] at hf
    exact ⟨t, rfl, hf⟩

/-- C9. If the topological order computed by `runSeq` is `l1 ++ f :: l2`
where every task of `l1` has a non-raising action and `f`'s action raises,
then `runSeq` stops at `f`: it reports failure (the exception propagates,
no retry), its invocation trace is exactly the actions of `l1` followed by
`f`, and no task strictly after `f` in the order is executed. -/
theorem action_failure_aborts_runSeq {ts : List Task}
    {ps : List (String × List String)} {st : SystemTask}
    {l1 : List String} {f : String} {l2 : List String}
    (h : SystemTask.construct ts ps = .ok st)
    (hkeys : ∀ k ∈ ps.map (fun p => p.1), k ∈ ts.map (fun t => t.name))
    (horder : topoSort
      (graphNodes (st.tasks.map (fun p => p.1)) (precedenceEdges st.max_parallelism))
      (precedenceEdges st.max_parallelism) = some (l1 ++ f :: l2))
    (hpre : ∀ n ∈ l1, failsAt st.tasks n = false)
    (hfail : failsAt st.tasks f = true) :
    st.runSeq = some (l1.filter (hasAction st.tasks) ++ [f], false) ∧
    ∀ n ∈ l2, n ∉ l1.filter (hasAction st.tasks) ++ [f] := by
  obtain ⟨hGN, -⟩ := construct_ok_graph h hkeys
  obtain ⟨hvt, -, htasks, -, -⟩ := construct_ok h
  have hnodup := validate_tasks_ok_iff.mp hvt
  have hperm : (l1 ++ f :: l2).Perm (ts.map (fun t => t.name)) := by
    have := kahn_perm horder
    rw [hGN] at this
    exact this
  have hordernodup : (l1 ++ f :: l2).Nodup := (hperm.nodup_iff).mpr hnodup
  have hok1 : ∀ n ∈ l1, ∃ t, lookupA st.tasks n = some t ∧ t.run ≠ some false := by
    intro n hn
    have hmem : n ∈ ts.map (fun t => t.name) :=
      hperm.mem_iff.mp (List.mem_append_left _ hn)
    rcases lookup_of_mem_names hnodup hmem with ⟨t, hlook, -, -⟩
    have hlook' : lookupA st.tasks n = some t := by rw [htasks]; exact hlook
    exact ⟨t, hlook', failsAt_false_elim (hpre n hn) hlook'⟩
  rcases failsAt_true_elim hfail with ⟨tf, hlookf, hrunf⟩
  constructor
  · rw [runSeq_eq, horder, Option.map_some']
    rw [execActions_fails hok1 hlookf hrunf]
  · intro n hn hmem
    have hsplit := List.nodup_append.mp hordernodup
    rw [List.mem_append] at hmem
    rcases hmem with hc | hc
    · have hmem1 : n ∈ l1 := List.mem_of_mem_filter hc
      exact hsplit.2.2 hmem1 (List.mem_cons_of_mem _ hn)
    · rw [List.mem_singleton] at hc
      subst hc
      rcases List.nodup_cons.mp hsplit.2.1 with ⟨hfnot, -⟩
      exact hfnot hn

/-! ## The concurrent wave machine -/

lemma waveStep_eq (tasks : List (String × Task)) (mp : List (String × List String))
    (completed : List String) :
    waveStep tasks mp completed =
      if completed.length < tasks.length then
        if (readyTasks tasks mp completed).isEmpty then .deadlock
        else
          match failingReady tasks (readyTasks tasks mp completed) with
          | some n => .actionFailed n
          | none => .nextWave (completed ++ readyTasks tasks mp completed)
      else .done completed := rfl

lemma runWaves_succ (tasks : List (String × Task)) (mp : List (String × List String))
    (fuel : Nat) (completed : List String) :
    runWaves tasks mp (fuel + 1) completed =
      match waveStep tasks mp completed with
      | .done c => some (.ok c)
      | .deadlock => some (.error .deadlock)
      | .actionFailed n => some (.error (.actionFailed n))
      | .nextWave c => runWaves tasks mp fuel c := rfl

lemma readyTasks_ne_nil {tasks : List (String × Task)} {mp : List (String × List String)}
    {completed : List String} {order : List String}
    (hnodup : (tasks.map (fun p => p.1)).Nodup)
    (horder : topoSort
      (graphNodes (tasks.map (fun p => p.1)) (precedenceEdges mp))
      (precedenceEdges mp) = some order)
    (hvals : ∀ p ∈ mp, ∀ d ∈ p.2, d ∈ tasks.map (fun p => p.1))
    (hincomp : ∃ v ∈ tasks.map (fun p => p.1), v ∉ completed) :
    readyTasks tasks mp completed ≠ [] := by
  have hperm := kahn_perm horder
  have hnodesnodup : (graphNodes (tasks.map (fun p => p.1)) (precedenceEdges mp)).Nodup :=
    graphNodes_nodup _ hnodup
  have hordernodup : order.Nodup := (hperm.nodup_iff).mpr hnodesnodup
  rcases hincomp with ⟨v0, hv0names, hv0comp⟩
  have hv0order : v0 ∈ order :=
    hperm.mem_iff.mpr (mem_graphNodes_of_mem _ hv0names)
  have hfind : (order.find? (fun n =>
      (tasks.map (fun p => p.1)).contains n && !completed.contains n)).isSome := by
    rw [List.find?_isSome]
    exact ⟨v0, hv0order, by
      rw [Bool.and_eq_true_iff]
      exact ⟨by simpa using hv0names, by simpa using hv0comp⟩⟩
  rcases Option.isSome_iff_exists.mp hfind with ⟨v, hv⟩
  have hpv := List.find?_some hv
  rcases Bool.and_eq_true_iff.mp hpv with ⟨hvnames, hvcomp⟩
  have hvnames' : v ∈ tasks.map (fun p => p.1) := by simpa using hvnames
  have hvcomp' : v ∉ completed := by simpa using hvcomp
  rcases find?_decomp hv with ⟨o1, o2, hoeq, ho1⟩
  have hdeps : ∀ dep ∈ lookupDeps mp v, dep ∈ completed := by
    intro dep hdep
    have hedge : (dep, v) ∈ precedenceEdges mp := mem_precedenceEdges_of_lookupDeps hdep
    have hdepnames : dep ∈ tasks.map (fun p => p.1) := by
      rcases lookupDeps_entry hdep with ⟨p, hp, -, hd⟩
      exact hvals p hp dep hd
    have hbefore : isBefore order dep v = true :=
      kahn_isBefore horder hedge (mem_graphNodes_of_mem _ hdepnames)
        (hperm.mem_iff.mpr (mem_graphNodes_of_mem _ hvnames'))
    rw [hoeq] at hbefore hordernodup
    have hdep1 : dep ∈ o1 := isBefore_decomp_mem hordernodup hbefore
    have hpdep := ho1 dep hdep1
    rcases Bool.and_eq_false_iff.mp hpdep with hc | hc
    · have hct : (tasks.map (fun p => p.1)).contains dep = true := by simpa using hdepnames
      rw [hct] at hc
      exact absurd hc (by simp)
    · have : completed.contains dep = true := by
        cases hcc : completed.contains dep
        · rw [hcc] at hc; exact absurd hc (by simp)
        · rfl
      simpa using this
  have hvready : v ∈ readyTasks tasks mp completed := by
    unfold readyTasks
    refine List.mem_filter.mpr ⟨hvnames', ?_⟩
    rw [Bool.and_eq_true_iff]
    refine ⟨by simpa using hvcomp', ?_⟩
    rw [List.all_eq_true]
    intro dep hdep
    simpa using hdeps dep hdep
  exact List.ne_nil_of_mem hvready

lemma runWaves_completes {tasks : List (String × Task)} {mp : List (String × List String)}
    {order : List String}
    (hnodup : (tasks.map (fun p => p.1)).Nodup)
    (horder : topoSort
      (graphNodes (tasks.map (fun p => p.1)) (precedenceEdges mp))
      (precedenceEdges mp) = some order)
    (hvals : ∀ p ∈ mp, ∀ d ∈ p.2, d ∈ tasks.map (fun p => p.1))
    (hnofail : ∀ p ∈ tasks, p.2.run ≠ some false) :
    ∀ fuel (completed : List String), completed.Nodup →
      (∀ c ∈ completed, c ∈ tasks.map (fun p => p.1)) →
      tasks.length - completed.length < fuel →
      ∃ final, runWaves tasks mp fuel completed = some (.ok final) ∧
        final.Perm (tasks.map (fun p => p.1)) := by
  intro fuel
  induction fuel with
  | zero =>
    intro completed hcn hcs hm
    omega
  | succ fuel ih =>
    intro completed hcn hcs hm
    have hsub : completed.Subperm (tasks.map (fun p => p.1)) := hcn.subperm hcs
    have hlenle : completed.length ≤ tasks.length := by
      have := hsub.length_le
      rw [List.length_map] at this
      exact this
    rw [runWaves_succ, waveStep_eq]
    by_cases hlen : completed.length < tasks.length
    · have hincomp : ∃ v ∈ tasks.map (fun p => p.1), v ∉ completed := by
        by_contra hall
        push_neg at hall
        have hsub2 : (tasks.map (fun p => p.1)).Subperm completed :=
          hnodup.subperm hall
        have := hsub2.length_le
        rw [List.length_map] at this
        omega
      have hready := readyTasks_ne_nil hnodup horder hvals hincomp
      have hreadyempty : (readyTasks tasks mp completed).isEmpty = false := by
        rw [List.isEmpty_eq_false]
        exact hready
      have hnofailready : failingReady tasks (readyTasks tasks mp completed) = none := by
        unfold failingReady
        rw [List.find?_eq_none]
        intro n hn
        have hnnames : n ∈ tasks.map (fun p => p.1) := List.mem_of_mem_filter hn
        rcases List.mem_map.mp hnnames with ⟨q, hq, hqn⟩
        intro hpf
        rcases failsAt_true_elim hpf with ⟨t, hlook, hrunt⟩
        unfold lookupA at hlook
        rcases Option.map_eq_some'.mp hlook with ⟨q', hq', hq'2⟩
        have hq'mem := List.mem_of_find?_eq_some hq'
        subst hq'2
        exact hnofail q' hq'mem hrunt
      rw [if_pos hlen, hreadyempty, hnofailready]
      simp only [Bool.false_eq_true, if_false]
      have hreadynodup : (readyTasks tasks mp completed).Nodup := by
        unfold readyTasks
        exact hnodup.filter _
      have hreadysub : ∀ n ∈ readyTasks tasks mp completed,
          n ∈ tasks.map (fun p => p.1) := by
        intro n hn
        exact List.mem_of_mem_filter hn
      have hreadydisj : ∀ n ∈ readyTasks tasks mp completed, n ∉ completed := by
        intro n hn
        have := (List.mem_filter.mp hn).2
        rcases Bool.and_eq_true_iff.mp this with ⟨hnc, -⟩
        simpa using hnc
      have hnewnodup : (completed ++ readyTasks tasks mp completed).Nodup := by
        rw [List.nodup_append]
        exact ⟨hcn, hreadynodup, fun a ha hb => hreadydisj a hb ha⟩
      have hnewsub : ∀ c ∈ completed ++ readyTasks tasks mp completed,
          c ∈ tasks.map (fun p => p.1) := by
        intro c hc
        rcases List.mem_append.mp hc with hc | hc
        · exact hcs c hc
        · exact hreadysub c hc
      have hreadylen : 1 ≤ (readyTasks tasks mp completed).length := by
        rcases List.exists_mem_of_ne_nil _ hready with ⟨x, hx⟩
        have := List.length_pos_of_mem hx
        omega
      have hnewm : tasks.length - (completed ++ readyTasks tasks mp completed).length < fuel := by
        rw [List.length_append]
        omega
      exact ih _ hnewnodup hnewsub hnewm
    · rw [if_neg hlen]
      refine ⟨completed, rfl, ?_⟩
      refine hsub.perm_of_length_le ?_
      rw [List.length_map]
      omega

lemma maxpar_values {ts : List Task} {ps : List (String × List String)} {st : SystemTask}
    (h : SystemTask.construct ts ps = .ok st) :
    ∀ p ∈ st.max_parallelism, ∀ d ∈ p.2, d ∈ ts.map (fun t => t.name) := by
  obtain ⟨-, hvp, -, -, hbuild⟩ := construct_ok h
  obtain ⟨-, hvalues⟩ := validate_precedences_ok hvp
  obtain ⟨hmp, -⟩ := build_max_parallelism_ok hbuild
  rw [copy_eq] at hmp
  rw [hmp]
  refine valuesSubset_foldl _ hvalues ?_
  intro pr hpr
  have := mem_allPairs_fst hpr
  rw [taskDict_fst] at this
  exact this

lemma run_eq (st : SystemTask) :
    st.run = runWaves st.tasks st.max_parallelism (st.tasks.length + 1) [] := rfl

lemma run_completes_perm {ts : List Task} {ps : List (String × List String)}
    {st : SystemTask} (h : SystemTask.construct ts ps = .ok st)
    (hrun : ∀ t ∈ ts, t.run ≠ some false) :
    ∃ final, st.run = some (.ok final) ∧ final.Perm (ts.map (fun t => t.name)) := by
  obtain ⟨hvt, -, htasks, -, hbuild⟩ := construct_ok h
  have hnodup := validate_tasks_ok_iff.mp hvt
  have hfst : st.tasks.map (fun p => p.1) = ts.map (fun t => t.name) := by
    rw [htasks, taskDict_fst]
  have hdag0 := (build_max_parallelism_ok hbuild).2
  rw [taskDict_fst] at hdag0
  unfold is_directed_acyclic_graph at hdag0
  rcases Option.isSome_iff_exists.mp hdag0 with ⟨order, horder⟩
  have horder' : topoSort
      (graphNodes (st.tasks.map (fun p => p.1)) (precedenceEdges st.max_parallelism))
      (precedenceEdges st.max_parallelism) = some order := by
    rw [hfst]
    exact horder
  have hnodup' : (st.tasks.map (fun p => p.1)).Nodup := by
    rw [hfst]
    exact hnodup
  have hvals : ∀ p ∈ st.max_parallelism, ∀ d ∈ p.2,
      d ∈ st.tasks.map (fun p => p.1) := by
    rw [hfst]
    exact maxpar_values h
  have hnofail : ∀ p ∈ st.tasks, p.2.run ≠ some false := by
    rw [htasks]
    intro p hp
    rcases List.mem_map.mp hp with ⟨t, ht, rfl⟩
    exact hrun t ht
  rcases runWaves_completes hnodup' horder' hvals hnofail (st.tasks.length + 1) []
    List.nodup_nil (by intro c hc; exact absurd hc (List.not_mem_nil c))
    (by omega) with ⟨final, hfinal, hfperm⟩
  rw [hfst] at hfperm
  exact ⟨final, by rw [run_eq]; exact hfinal, hfperm⟩

/-- C7. Modelling the concurrent run as the wave state machine over the
completed set: (1) for any completed set reachable in a run (duplicate-free,
all of it task names), one loop iteration raises the deadlock error exactly
when no task is ready while the completed set is a strict subset of the task
set; and (2) for a successfully constructed system (whose
maximum-parallelism graph therefore passed the acyclicity re-check) in
which every action terminates without error, the deadlock branch is never
taken: the run terminates with every task completed exactly once. -/
theorem run_deadlock_characterization_and_completion {ts : List Task}
    {ps : List (String × List String)} {st : SystemTask}
    (h : SystemTask.construct ts ps = .ok st)
    (hrun : ∀ t ∈ ts, t.run ≠ some false) :
    (∀ completed : List String, completed.Nodup →
      (∀ c ∈ completed, c ∈ ts.map (fun t => t.name)) →
      (waveStep st.tasks st.max_parallelism completed = .deadlock ↔
        readyTasks st.tasks st.max_parallelism completed = [] ∧
        ¬ completed.Perm (ts.map (fun t => t.name)))) ∧
    (∃ final, st.run = some (.ok final) ∧ final.Perm (ts.map (fun t => t.name)) ∧
      ∀ t ∈ ts, final.count t.name = 1) := by
  obtain ⟨hvt, hvp, htasks, hinit, hbuild⟩ := construct_ok h
  have hnodup := validate_tasks_ok_iff.mp hvt
  have hfst : st.tasks.map (fun p => p.1) = ts.map (fun t => t.name) := by
    rw [htasks, taskDict_fst]
  have hlen : st.tasks.length = ts.length := by
    rw [htasks, List.length_map]
  have hnameslen : (ts.map (fun t => t.name)).length = ts.length := List.length_map _ _
  constructor
  · intro completed hcn hcs
    have hsub : completed.Subperm (ts.map (fun t => t.name)) := hcn.subperm hcs
    constructor
    · intro hd
      rw [waveStep_eq] at hd
      by_cases hl : completed.length < st.tasks.length
      · rw [if_pos hl] at hd
        cases hre : (readyTasks st.tasks st.max_parallelism completed).isEmpty with
        | false =>
          rw [hre] at hd
          simp only [Bool.false_eq_true, if_false] at hd
          cases hfr : failingReady st.tasks (readyTasks st.tasks st.max_parallelism completed) with
          | some n => rw [hfr] at hd; simp at hd
          | none => rw [hfr] at hd; simp at hd
        | true =>
          refine ⟨List.isEmpty_iff.mp hre, ?_⟩
          intro hpermc
          have := hpermc.length_eq
          omega
      · rw [if_neg hl] at hd
        simp at hd
    · rintro ⟨hready, hnperm⟩
      have hlt : completed.length < st.tasks.length := by
        have hle := hsub.length_le
        rcases Nat.lt_or_ge completed.length st.tasks.length with hc | hc
        · exact hc
        · exfalso
          exact hnperm (hsub.perm_of_length_le (by omega))
      rw [waveStep_eq, if_pos hlt, hready]
      rfl
  · rcases run_completes_perm h hrun with ⟨final, hfinal, hfperm⟩
    refine ⟨final, hfinal, hfperm, ?_⟩
    intro t ht
    rw [hfperm.count_eq]
    exact List.count_eq_one_of_mem hnodup (List.mem_map.mpr ⟨t, ht, rfl⟩)

/-- Witness for C7 at the concrete chain `A → B`. -/
theorem run_deadlock_characterization_witness :
    (SystemTask.construct chainTasks chainPrecs = .ok chainSystem) ∧
    (∀ t ∈ chainTasks, t.run ≠ some false) ∧
    ((∀ completed : List String, completed.Nodup →
      (∀ c ∈ completed, c ∈ chainTasks.map (fun t => t.name)) →
      (waveStep chainSystem.tasks chainSystem.max_parallelism completed = .deadlock ↔
        readyTasks chainSystem.tasks chainSystem.max_parallelism completed = [] ∧
        ¬ completed.Perm (chainTasks.map (fun t => t.name)))) ∧
    (∃ final, chainSystem.run = some (.ok final) ∧
      final.Perm (chainTasks.map (fun t => t.name)) ∧
      ∀ t ∈ chainTasks, final.count t.name = 1)) :=
  ⟨rfl, by decide,
    @run_deadlock_characterization_and_completion chainTasks chainPrecs chainSystem
      rfl (by decide)⟩

/-- C10. A `Task` constructed with `reads=None` and `writes=None` gets empty
read and write sets and interferes with no task (in either direction) on
resource grounds; and a task whose action is absent (`run=None`) is a no-op
for both entry points: for a successfully constructed system (keys naming
tasks, all present actions returning normally) containing such a task `t0`,
`runSeq` succeeds without ever invoking anything for `t0`, while `run`
succeeds and still records `t0` in the completed set. -/
theorem none_defaults_and_absent_action_noop {ts : List Task}
    {ps : List (String × List String)} {st : SystemTask} {t0 : Task}
    (h : SystemTask.construct ts ps = .ok st)
    (hkeys : ∀ k ∈ ps.map (fun p => p.1), k ∈ ts.map (fun t => t.name))
    (hrun : ∀ t ∈ ts, t.run ≠ some false)
    (ht0 : t0 ∈ ts) (ht0run : t0.run = none) :
    (∀ (name : String) (r : Option Bool),
      (mkTask name none none r).reads = [] ∧ (mkTask name none none r).writes = [] ∧
      (∀ t' : Task, are_tasks_interfering (mkTask name none none r) t' = false ∧
        are_tasks_interfering t' (mkTask name none none r) = false)) ∧
    (∃ trace, st.runSeq = some (trace, true) ∧ t0.name ∉ trace) ∧
    (∃ final, st.run = some (.ok final) ∧ t0.name ∈ final) := by
  obtain ⟨hvt, -, htasks, -, -⟩ := construct_ok h
  have hnodup := validate_tasks_ok_iff.mp hvt
  refine ⟨?_, ?_, ?_⟩
  · intro name r
    refine ⟨rfl, rfl, ?_⟩
    intro t'
    constructor
    · simp [are_tasks_interfering, mkTask, listInter]
    · simp [are_tasks_interfering, mkTask, listInter]
  · obtain ⟨-, order, horder, hperm, -⟩ := construct_ok_graph h hkeys
    have hlookups : ∀ n ∈ order, ∃ t, lookupA st.tasks n = some t ∧ t.run ≠ some false := by
      intro n hn
      have hn' : n ∈ ts.map (fun t => t.name) := hperm.mem_iff.mp hn
      rcases lookup_of_mem_names hnodup hn' with ⟨t, hlook, ht, -⟩
      exact ⟨t, by rw [htasks]; exact hlook, hrun t ht⟩
    refine ⟨order.filter (hasAction st.tasks), ?_, ?_⟩
    · rw [runSeq_eq, horder, Option.map_some']
      rw [execActions_all_ok hlookups]
    · intro hmem
      have hfa := (List.mem_filter.mp hmem).2
      have hlook : lookupA st.tasks t0.name = some t0 := by
        rw [htasks, lookupA_taskDict]
        exact find?_name_eq_self hnodup ht0
      rw [hasAction, hlook] at hfa
      simp only [ht0run] at hfa
      exact absurd hfa (by simp)
  · rcases run_completes_perm h hrun with ⟨final, hfinal, hfperm⟩
    exact ⟨final, hfinal, hfperm.mem_iff.mpr (List.mem_map.mpr ⟨t0, ht0, rfl⟩)⟩

/-- Witness for C10 at the concrete chain `A → N` where `N` has no action. -/
theorem none_defaults_and_absent_action_noop_witness :
    (SystemTask.construct noneTasks nonePrecs = .ok noneSystem) ∧
    (∀ k ∈ nonePrecs.map (fun p => p.1), k ∈ noneTasks.map (fun t => t.name)) ∧
    (∀ t ∈ noneTasks, t.run ≠ some false) ∧
    ((⟨"N", [], [], none⟩ : Task) ∈ noneTasks) ∧
    ((⟨"N", [], [], none⟩ : Task).run = none) ∧
    ((∀ (name : String) (r : Option Bool),
      (mkTask name none none r).reads = [] ∧ (mkTask name none none r).writes = [] ∧
      (∀ t' : Task, are_tasks_interfering (mkTask name none none r) t' = false ∧
        are_tasks_interfering t' (mkTask name none none r) = false)) ∧
    (∃ trace, noneSystem.runSeq = some (trace, true) ∧
      (⟨"N", [], [], none⟩ : Task).name ∉ trace) ∧
    (∃ final, noneSystem.run = some (.ok final) ∧
      (⟨"N", [], [], none⟩ : Task).name ∈ final)) :=
  ⟨rfl, by decide, by decide, by decide, rfl,
    @none_defaults_and_absent_action_noop noneTasks nonePrecs noneSystem
      ⟨"N", [], [], none⟩ rfl (by decide) (by decide) (by decide) rfl⟩

/-- Witness for C9 at the concrete chain `A → B → C` with `B`'s action
raising: `A` runs, `B` is invoked and fails, `C` is never executed. -/
theorem action_failure_aborts_runSeq_witness :
    (SystemTask.construct failTasks failPrecs = .ok failSystem) ∧
    (∀ k ∈ failPrecs.map (fun p => p.1), k ∈ failTasks.map (fun t => t.name)) ∧
    (topoSort
      (graphNodes (failSystem.tasks.map (fun p => p.1))
        (precedenceEdges failSystem.max_parallelism))
      (precedenceEdges failSystem.max_parallelism) = some (["A"] ++ "B" :: ["C"])) ∧
    (∀ n ∈ ["A"], failsAt failSystem.tasks n = false) ∧
    (failsAt failSystem.tasks "B" = true) ∧
    (failSystem.runSeq = some (["A"].filter (hasAction failSystem.tasks) ++ ["B"], false) ∧
      ∀ n ∈ ["C"], n ∉ ["A"].filter (hasAction failSystem.tasks) ++ ["B"]) :=
  ⟨rfl, by decide, by decide, by decide, by decide,
    @action_failure_aborts_runSeq failTasks failPrecs failSystem ["A"] "B" ["C"]
      rfl (by decide) (by decide) (by decide) (by decide)⟩

/-! ## Derived edges for interfering, explicitly-unordered pairs -/

lemma appendDep_not_mem {mp : List (String × List String)} {key : String} (dep : String)
    (h : key ∉ mp.map (fun p => p.1)) : appendDep mp key dep = mp := by
  induction mp with
  | nil => rfl
  | cons p rest ih =>
    rcases p with ⟨k, ds⟩
    rw [List.map_cons] at h
    have hk : (k == key) = false := by
      rw [beq_eq_false_iff_ne]
      intro hc
      exact h (by rw [hc]; exact List.mem_cons_self _ _)
    unfold appendDep
    rw [if_neg (by simp [hk])]
    rw [ih (fun hc => h (List.mem_cons_of_mem _ hc))]

lemma interferenceStep_cases (tasks : List (String × Task))
    (mp : List (String × List String)) (pr : String × String) :
    interferenceStep tasks mp pr = mp ∨
    interferenceStep tasks mp pr = appendDep mp pr.2 pr.1 := by
  unfold interferenceStep
  by_cases hc : ((lookupDeps mp pr.1).contains pr.2 || (lookupDeps mp pr.2).contains pr.1) = true
  · rw [if_pos hc]
    exact Or.inl rfl
  · rw [if_neg hc]
    cases lookupA tasks pr.1 with
    | none => exact Or.inl rfl
    | some t1 =>
      cases lookupA tasks pr.2 with
      | none => exact Or.inl rfl
      | some t2 =>
        by_cases hi : are_tasks_interfering t1 t2 = true
        · simp [hi]
        · rw [Bool.not_eq_true] at hi
          simp [hi]

lemma mem_allPairs_iff {α : Type} {a b : α} {l : List α} :
    (a, b) ∈ allPairs l ↔ List.Sublist [a, b] l := by
  induction l with
  | nil =>
    unfold allPairs
    simp
  | cons x xs ih =>
    unfold allPairs
    rw [List.mem_append]
    constructor
    · rintro (hm | hm)
      · rcases List.mem_map.mp hm with ⟨y, hy, heq⟩
        rw [Prod.mk.injEq] at heq
        rcases heq with ⟨hxa, hyb⟩
        subst hxa
        subst hyb
        exact List.Sublist.cons₂ _ (List.singleton_sublist.mpr hy)
      · exact List.Sublist.cons _ (ih.mp hm)
    · intro hs
      cases hs with
      | cons _ hs2 => exact Or.inr (ih.mpr hs2)
      | cons₂ _ hs2 =>
        exact Or.inl (List.mem_map.mpr ⟨b, List.singleton_sublist.mp hs2, rfl⟩)

lemma sublist_pair_nodup_asymm {l : List String} {a b : String} (hnd : l.Nodup)
    (hab : List.Sublist [a, b] l) (hba : List.Sublist [b, a] l) : False := by
  induction l with
  | nil => simp at hab
  | cons x xs ih =>
    rcases List.nodup_cons.mp hnd with ⟨hxnot, hxs⟩
    cases hab with
    | cons _ hab2 =>
      cases hba with
      | cons _ hba2 => exact ih hxs hab2 hba2
      | cons₂ _ hba2 => exact hxnot (hab2.subset (by simp))
    | cons₂ _ hab2 =>
      cases hba with
      | cons _ hba2 => exact hxnot (hba2.subset (by simp))
      | cons₂ _ hba2 => exact hxnot (hba2.subset (by simp))

lemma interferenceStep_adds {tasks : List (String × Task)}
    {mp : List (String × List String)} {a b : String} {ta tb : Task}
    (hc1 : (lookupDeps mp a).contains b = false)
    (hc2 : (lookupDeps mp b).contains a = false)
    (hla : lookupA tasks a = some ta) (hlb : lookupA tasks b = some tb)
    (hint : are_tasks_interfering ta tb = true) :
    interferenceStep tasks mp (a, b) = appendDep mp b a := by
  unfold interferenceStep
  simp only [hc1, hc2, hla, hlb, hint, Bool.or_self, Bool.false_eq_true, if_false, if_true]

lemma step_preserves_unconnected {tasks : List (String × Task)}
    {mp : List (String × List String)} {A B : String} (hAB : A ≠ B)
    {pr : String × String} (hne : pr ≠ (B, A))
    (hQ : A ∈ lookupDeps mp B ∨ (B ∉ lookupDeps mp A ∧ A ∉ lookupDeps mp B)) :
    A ∈ lookupDeps (interferenceStep tasks mp pr) B ∨
      (B ∉ lookupDeps (interferenceStep tasks mp pr) A ∧
        A ∉ lookupDeps (interferenceStep tasks mp pr) B) := by
  rcases interferenceStep_cases tasks mp pr with he | he <;> rw [he]
  · exact hQ
  · rcases hQ with hQ | ⟨hQ1, hQ2⟩
    · exact Or.inl (mem_lookupDeps_appendDep _ _ hQ)
    · rcases pr with ⟨p1, p2⟩
      by_cases h2B : B = p2
      · subst h2B
        by_cases h1A : A = p1
        · subst h1A
          by_cases hk : B ∈ mp.map (fun p => p.1)
          · refine Or.inl ?_
            rw [lookupDeps_appendDep_self A hk]
            exact List.mem_append_right _ (List.mem_singleton_self A)
          · rw [appendDep_not_mem A hk]
            exact Or.inr ⟨hQ1, hQ2⟩
        · refine Or.inr ⟨?_, ?_⟩
          · rw [lookupDeps_appendDep_ne p1 hAB]
            exact hQ1
          · by_cases hk : B ∈ mp.map (fun p => p.1)
            · rw [lookupDeps_appendDep_self p1 hk]
              intro hmem
              rcases List.mem_append.mp hmem with hc | hc
              · exact hQ2 hc
              · rw [List.mem_singleton] at hc
                exact h1A hc
            · rw [appendDep_not_mem p1 hk]
              exact hQ2
      · by_cases h2A : A = p2
        · subst h2A
          have h1B : ¬ B = p1 := by
            intro hc
            subst hc
            exact hne rfl
          refine Or.inr ⟨?_, ?_⟩
          · by_cases hk : A ∈ mp.map (fun p => p.1)
            · rw [lookupDeps_appendDep_self p1 hk]
              intro hmem
              rcases List.mem_append.mp hmem with hc | hc
              · exact hQ1 hc
              · rw [List.mem_singleton] at hc
                exact h1B hc
            · rw [appendDep_not_mem p1 hk]
              exact hQ1
          · rw [lookupDeps_appendDep_ne p1 (Ne.symm hAB)]
            exact hQ2
        · refine Or.inr ⟨?_, ?_⟩
          · rw [lookupDeps_appendDep_ne p1 (fun hc => h2A hc)]
            exact hQ1
          · rw [lookupDeps_appendDep_ne p1 (fun hc => h2B hc)]
            exact hQ2

lemma foldl_preserves_unconnected {tasks : List (String × Task)} {A B : String}
    (hAB : A ≠ B) :
    ∀ {pairs : List (String × String)} {mp : List (String × List String)},
      (∀ pr ∈ pairs, pr ≠ (B, A)) →
      (A ∈ lookupDeps mp B ∨ (B ∉ lookupDeps mp A ∧ A ∉ lookupDeps mp B)) →
      (A ∈ lookupDeps (pairs.foldl (interferenceStep tasks) mp) B ∨
        (B ∉ lookupDeps (pairs.foldl (interferenceStep tasks) mp) A ∧
          A ∉ lookupDeps (pairs.foldl (interferenceStep tasks) mp) B)) := by
  intro pairs
  induction pairs with
  | nil => intro mp hall hQ; exact hQ
  | cons pr rest ih =>
    intro mp hall hQ
    rw [List.foldl_cons]
    exact ih (fun q hq => hall q (List.mem_cons_of_mem _ hq))
      (step_preserves_unconnected hAB (hall pr (List.mem_cons_self _ _)) hQ)

/-- C8. For every interfering pair of tasks `A`, `B` with `A` enumerated
before `B` in the task list, where neither directly lists the other in the
explicit precedence mapping, `_build_max_parallelism` records `A` as a
dependency of `B`: the derived graph contains the edge `(A, B)`, directed
from the enumeration-earlier task to the enumeration-later one. -/
theorem interfering_unordered_pair_gets_directed_edge {ts : List Task}
    {ps : List (String × List String)} {st : SystemTask}
    {A B : String} {tA tB : Task}
    (h : SystemTask.construct ts ps = .ok st)
    (hsub : List.Sublist [A, B] (ts.map (fun t => t.name)))
    (hlookA : lookupA st.tasks A = some tA)
    (hlookB : lookupA st.tasks B = some tB)
    (hint : are_tasks_interfering tA tB = true)
    (hnBA : A ∉ lookupDeps ps B)
    (hnAB : B ∉ lookupDeps ps A) :
    A ∈ lookupDeps st.max_parallelism B ∧ (A, B) ∈ precedenceEdges st.max_parallelism := by
  obtain ⟨hvt, hvp, htasks, hinit, hbuild⟩ := construct_ok h
  have hnodup := validate_tasks_ok_iff.mp hvt
  obtain ⟨htotal, -⟩ := validate_precedences_ok hvp
  obtain ⟨hmp, -⟩ := build_max_parallelism_ok hbuild
  rw [copy_eq] at hmp
  rw [taskDict_fst] at hmp
  have hAB : A ≠ B := by
    have hnd2 : ([A, B] : List String).Nodup := hnodup.sublist hsub
    rcases List.nodup_cons.mp hnd2 with ⟨hA, -⟩
    intro hc
    exact hA (by rw [hc]; exact List.mem_singleton_self B)
  have hmem : (A, B) ∈ allPairs (ts.map (fun t => t.name)) := mem_allPairs_iff.mpr hsub
  have hnotrev : ∀ pr ∈ allPairs (ts.map (fun t => t.name)), pr ≠ (B, A) := by
    intro pr hpr hc
    subst hc
    exact sublist_pair_nodup_asymm hnodup hsub (mem_allPairs_iff.mp hpr)
  rcases List.append_of_mem hmem with ⟨L1, L2, hsplit⟩
  rw [htasks] at hlookA hlookB
  have hQ1 := @foldl_preserves_unconnected (ts.map (fun t => (t.name, t))) A B hAB L1 ps
    (fun pr hpr => hnotrev pr (by rw [hsplit]; exact List.mem_append_left _ hpr))
    (Or.inr ⟨hnAB, hnBA⟩)
  have hstep : A ∈ lookupDeps
      (interferenceStep (ts.map (fun t => (t.name, t)))
        (L1.foldl (interferenceStep (ts.map (fun t => (t.name, t)))) ps) (A, B)) B := by
    rcases hQ1 with hQ | ⟨hq1, hq2⟩
    · exact mem_lookupDeps_interferenceStep _ _ hQ
    · have hBkeys : B ∈
          (L1.foldl (interferenceStep (ts.map (fun t => (t.name, t)))) ps).map
            (fun p => p.1) := by
        rw [keys_foldl_interferenceStep]
        exact htotal B (hsub.subset (by simp))
      have hc1 : (lookupDeps
          (L1.foldl (interferenceStep (ts.map (fun t => (t.name, t)))) ps) A).contains B
          = false := by
        cases hcc : (lookupDeps
            (L1.foldl (interferenceStep (ts.map (fun t => (t.name, t)))) ps) A).contains B
        · rfl
        · exact absurd (by simpa using hcc) hq1
      have hc2 : (lookupDeps
          (L1.foldl (interferenceStep (ts.map (fun t => (t.name, t)))) ps) B).contains A
          = false := by
        cases hcc : (lookupDeps
            (L1.foldl (interferenceStep (ts.map (fun t => (t.name, t)))) ps) B).contains A
        · rfl
        · exact absurd (by simpa using hcc) hq2
      rw [interferenceStep_adds hc1 hc2 hlookA hlookB hint]
      rw [lookupDeps_appendDep_self A hBkeys]
      exact List.mem_append_right _ (List.mem_singleton_self A)
  have hfin : A ∈ lookupDeps st.max_parallelism B := by
    rw [hmp, hsplit, List.foldl_append, List.foldl_cons]
    exact mem_lookupDeps_foldl _ _ hstep
  exact ⟨hfin, mem_precedenceEdges_of_lookupDeps hfin⟩

/-- Witness for C8: `A` writes `"x"`, `B` reads `"x"`, no explicit ordering;
the derived graph gains the edge `A → B`. -/
theorem interfering_unordered_pair_witness :
    (SystemTask.construct interTasks interPrecs = .ok interSystem) ∧
    (List.Sublist ["A", "B"] (interTasks.map (fun t => t.name))) ∧
    (lookupA interSystem.tasks "A" = some ⟨"A", [], ["x"], some true⟩) ∧
    (lookupA interSystem.tasks "B" = some ⟨"B", ["x"], [], some true⟩) ∧
    (are_tasks_interfering ⟨"A", [], ["x"], some true⟩ ⟨"B", ["x"], [], some true⟩ = true) ∧
    ("A" ∉ lookupDeps interPrecs "B") ∧
    ("B" ∉ lookupDeps interPrecs "A") ∧
    ("A" ∈ lookupDeps interSystem.max_parallelism "B" ∧
      ("A", "B") ∈ precedenceEdges interSystem.max_parallelism) :=
  ⟨rfl, by decide, rfl, rfl, by decide, by decide, by decide,
    @interfering_unordered_pair_gets_directed_edge interTasks interPrecs interSystem
      "A" "B" ⟨"A", [], ["x"], some true⟩ ⟨"B", ["x"], [], some true⟩
      rfl (by decide) rfl rfl (by decide) (by decide) (by decide)⟩

/-- Witness for C6 at the concrete chain `A → B`. -/
theorem runSeq_executes_each_action_once_witness :
    (SystemTask.construct chainTasks chainPrecs = .ok chainSystem) ∧
    (∀ k ∈ chainPrecs.map (fun p => p.1), k ∈ chainTasks.map (fun t => t.name)) ∧
    (∀ t ∈ chainTasks, t.run ≠ some false) ∧
    (∃ order,
      topoSort
        (graphNodes (chainSystem.tasks.map (fun p => p.1))
          (precedenceEdges chainSystem.max_parallelism))
        (precedenceEdges chainSystem.max_parallelism) = some order ∧
      order.Perm (chainTasks.map (fun t => t.name)) ∧
      (∀ u v, (u, v) ∈ precedenceEdges chainSystem.max_parallelism →
        isBefore order u v = true) ∧
      chainSystem.runSeq = some (order.filter (hasAction chainSystem.tasks), true) ∧
      (∀ t ∈ chainTasks, t.run.isSome = true →
        (order.filter (hasAction chainSystem.tasks)).count t.name = 1) ∧
      (∀ u v, (u, v) ∈ precedenceEdges chainSystem.max_parallelism →
        hasAction chainSystem.tasks u = true → hasAction chainSystem.tasks v = true →
        isBefore (order.filter (hasAction chainSystem.tasks)) u v = true)) :=
  ⟨rfl, by decide, by decide,
    @runSeq_executes_each_action_once_in_edge_order chainTasks chainPrecs chainSystem
      rfl (by decide) (by decide)⟩

end TaskSystem
